import Mathlib

set_option maxHeartbeats 1600000

set_option maxRecDepth 100000

/-
Verification of the FAAQ repository: a fetch-and-add array queue (src/faaq.c,
src/faaq.h) built on a hazard-pointer reclamation engine (src/hp.c, hp.h).

The development is a sequential (single-threaded) shallow embedding:

* Machine pointers to payload items are abstracted by `Item := Nat`; a queue
  slot (`_Atomic(void *) items[FAA_BUFFER_SIZE]`) holds `Cell.empty` (the C
  nullptr), `Cell.val x` (a payload pointer) or `Cell.taken` (the queue's
  unique `taken_sentinel` allocation).  The C preconditions "item is non-null
  and differs from the sentinel" (enforced by `abort()` in
  `faa_queue_enqueue`) are exactly the values of the form `Cell.val x`.
* The node chain reachable from `q->head` is the list `nodes`; the `next`
  pointer of the node at position `k` is position `k + 1` (`none` past the
  end), `q->head` is position `0`, and `q->tail` is position `tailPos`.
  When the head is advanced the dropped node is retired to the HP engine and
  every later position shifts down by one, which is why the positional
  encoding decrements `tailPos` at that point.
* Atomic read-modify-writes collapse to their sequential meaning: a
  fetch-and-add returns the old value and stores the incremented one, and a
  compare-and-exchange (weak or strong) succeeds exactly when the expected
  value matches.  `while (true)` loops take explicit fuel and return `none`
  when it runs out; no reachable state needs more than two iterations.
* Allocation is modelled by an oracle `alloc : Nat → Bool` consumed in
  program order where the claims need it (`faa_queue_create`); elsewhere
  allocation is assumed to succeed (the source `abort()`s otherwise).
-/

/-! ### Queue data model (src/faaq.h) -/

/-- `FAA_BUFFER_SIZE` from src/faaq.h: slots per node. -/
def FAA_BUFFER_SIZE : Nat := 1024

/-- Abstract payload pointer (non-null, distinct from the taken sentinel). -/
abbrev Item := Nat

/-- Contents of one `_Atomic(void *)` queue slot. -/
inductive Cell where
  | empty : Cell
  | val : Item → Cell
  | taken : Cell
deriving DecidableEq

/-- `struct FAA_Node` (src/faaq.h): two indices and the slot array.  The
`hp_base` descriptor and the `next` pointer are represented by the node's
position in the queue's chain.  Slots at positions `≥ FAA_BUFFER_SIZE` do not
exist in C; the model keeps them `Cell.empty` forever. -/
structure Node where
  deqidx : Nat
  enqidx : Nat
  items : Nat → Cell

/-- `FAAArrayQueue_t` (src/faaq.h).  `nodes` is the chain from `head`;
`tailPos` is the chain position `tail` points at; `holders` are the per-tid
hazard-pointer protection slots (`holders[tid].hprec->ptr`), holding the chain
position of the protected node or `none` for nullptr. -/
structure FAAArrayQueue where
  nodes : List Node
  tailPos : Nat
  max_threads : Int
  holders : Int → Option Nat

/-! ### Queue construction (src/faaq.c, create_node / faa_queue_create) -/

/-- `create_node` (src/faaq.c lines 21-50): a fresh node; with an initial
item, slot 0 holds it and `enqidx` starts at 1. -/
def create_node (initial_item : Option Item) : Node :=
  match initial_item with
  | some x =>
    { deqidx := 0, enqidx := 1, items := fun i => if i = 0 then Cell.val x else Cell.empty }
  | none => { deqidx := 0, enqidx := 0, items := fun _ => Cell.empty }

/-- Outcome of `faa_queue_create`: a null return, a fatal `abort()`, or a
queue. -/
inductive CreateResult where
  | fail : CreateResult
  | fatal : CreateResult
  | ok : FAAArrayQueue → CreateResult
deriving Inhabited

/-- `faa_queue_create` (src/faaq.c lines 52-90).  The oracle `alloc` answers
the call's allocations in program order: 0 the `aligned_alloc` of the queue,
1 the `malloc` of `taken_sentinel`, 2 the `malloc` inside `create_node`
(failure there `abort()`s), 3 the `calloc` of `holders`, and `4 + i` the
record allocation inside `hazptr_holder_init` for holder `i` (the model is a
fresh thread: the TLC and the domain free list are empty, so each holder
init allocates, and `domain_acquire_hprec` `abort()`s on failure). -/
def faa_queue_create (alloc : Nat → Bool) (max_threads : Int) : CreateResult :=
  if max_threads ≤ 0 then .fail
  else if alloc 0 = false then .fail
  else if alloc 1 = false then .fail
  else if alloc 2 = false then .fatal
  else if alloc 3 = false then .fail
  else if ((List.range max_threads.toNat).all fun i => alloc (4 + i)) = false then .fatal
  else .ok { nodes := [create_node none], tailPos := 0, max_threads := max_threads,
             holders := fun _ => none }

/-- The queue a successful `faa_queue_create(max_threads)` returns: head and
tail both point at a single empty sentinel node, and every holder protection
slot is null. -/
def initialQueue (max_threads : Int) : FAAArrayQueue :=
  { nodes := [create_node none], tailPos := 0, max_threads := max_threads,
    holders := fun _ => none }

/-! ### Holder bookkeeping inside queue operations

`HAZPTR_PROTECT(l, h, &q->head/tail)` in a sequential run loads the current
pointer, stores it in the holder's record (`hazptr_reset`), and the
validating reload returns the same value, so the loop exits after one
iteration.  `queueProtect` is that net effect; `queueHazptrReset` is
`hazptr_reset(h, nullptr)`. -/

def queueProtect (q : FAAArrayQueue) (tid : Int) (p : Nat) : FAAArrayQueue :=
  { q with holders := fun t => if t = tid then some p else q.holders t }

def queueHazptrReset (q : FAAArrayQueue) (tid : Int) : FAAArrayQueue :=
  { q with holders := fun t => if t = tid then none else q.holders t }

/-- Replace the node at chain position `i`. -/
def setNode (q : FAAArrayQueue) (i : Nat) (n : Node) : FAAArrayQueue :=
  { q with nodes := q.nodes.set i n }

/-- Write cell `c` into slot `i` of node `n`. -/
def setSlot (n : Node) (i : Nat) (c : Cell) : Node :=
  { n with items := fun j => if j = i then c else n.items j }

/-! ### Enqueue (src/faaq.c lines 129-218) -/

/-- The `while (true)` body of `faa_queue_enqueue`, with explicit fuel.
Each iteration: protect the tail, fetch-and-add `enqidx`; on `idx <
FAA_BUFFER_SIZE` CAS the slot from null to the item (retry on failure); on
overflow re-check the tail, then either advance to the existing next node
and retry, or append a fresh node pre-filled with the item and swing the
tail.  Sequentially every CAS whose expected value matches succeeds. -/
def enqueueLoop : Nat → FAAArrayQueue → Item → Int → Option FAAArrayQueue
  | 0, _, _, _ => none
  | fuel + 1, q, item, tid =>
    let ltail := q.tailPos
    let q1 := queueProtect q tid ltail
    match q1.nodes[ltail]? with
    | none => none
    | some tn =>
      let idx := tn.enqidx
      let q2 := setNode q1 ltail { tn with enqidx := tn.enqidx + 1 }
      if FAA_BUFFER_SIZE ≤ idx then
        -- node is full (slow path)
        if q2.tailPos ≠ ltail then enqueueLoop fuel (queueHazptrReset q2 tid) item tid
        else
          let lnext : Option Nat := if ltail + 1 < q2.nodes.length then some (ltail + 1) else none
          match lnext with
          | none =>
            -- CAS ltail->next from null to a fresh node: succeeds sequentially,
            -- then the tail-swinging CAS is attempted (helping).
            let new_node := create_node (some item)
            let q3 := { q2 with nodes := q2.nodes ++ [new_node] }
            let q4 := if q3.tailPos = ltail then { q3 with tailPos := ltail + 1 } else q3
            some (queueHazptrReset q4 tid)
          | some nx =>
            let q3 := if q2.tailPos = ltail then { q2 with tailPos := nx } else q2
            enqueueLoop fuel (queueHazptrReset q3 tid) item tid
      else
        -- fast path: CAS items[idx] from null to item
        if tn.items idx = Cell.empty then
          let q3 := setNode q2 ltail (setSlot { tn with enqidx := tn.enqidx + 1 } idx (Cell.val item))
          some (queueHazptrReset q3 tid)
        else
          enqueueLoop fuel (queueHazptrReset q2 tid) item tid

/-- `faa_queue_enqueue` (src/faaq.c lines 129-218).  An out-of-range `tid`
prints an error and returns with no effect (assertions disabled); the
`item == nullptr` and `item == taken_sentinel` aborts are outside the model
because `Item` ranges over the legal payloads only. -/
def faa_queue_enqueue (fuel : Nat) (q : FAAArrayQueue) (item : Item) (tid : Int) :
    Option FAAArrayQueue :=
  if tid < 0 ∨ q.max_threads ≤ tid then some q
  else enqueueLoop fuel q item tid

/-! ### Dequeue (src/faaq.c lines 220-314) -/

/-- The `while (true)` body of `faa_queue_dequeue`, with explicit fuel.
Each iteration: protect the head; load `deqidx`, `enqidx`, `next`; if the
node looks empty and has no successor, break and return null.  Otherwise
fetch-and-add `deqidx`; on overflow reload `next` and either return null or
advance the head (the strong CAS succeeds sequentially), reset the hazard
pointer, retire the old head and retry; on a valid index exchange the slot
with the taken sentinel, retrying if the slot was still null. -/
def dequeueLoop : Nat → FAAArrayQueue → Int → Option (Cell × FAAArrayQueue)
  | 0, _, _ => none
  | fuel + 1, q, tid =>
    let q1 := queueProtect q tid 0
    match q1.nodes[0]? with
    | none => none
    | some hn =>
      let deq_idx := hn.deqidx
      let enq_idx := hn.enqidx
      let lnext : Option Nat := if 1 < q1.nodes.length then some 1 else none
      if enq_idx ≤ deq_idx ∧ lnext = none then
        some (Cell.empty, queueHazptrReset q1 tid)
      else
        let idx := deq_idx
        let q2 := setNode q1 0 { hn with deqidx := hn.deqidx + 1 }
        if FAA_BUFFER_SIZE ≤ idx then
          -- node drained (slow path): reload next
          let lnext2 : Option Nat := if 1 < q2.nodes.length then some 1 else none
          match lnext2 with
          | none => some (Cell.empty, queueHazptrReset q2 tid)
          | some _ =>
            -- strong CAS q->head from lhead to lnext succeeds sequentially;
            -- the hazard pointer is reset and the old head retired.
            let q3 := { q2 with nodes := q2.nodes.drop 1, tailPos := q2.tailPos - 1 }
            dequeueLoop fuel (queueHazptrReset q3 tid) tid
        else
          -- fast path: exchange items[idx] with the taken sentinel
          let item := hn.items idx
          let q3 := setNode q2 0 (setSlot { hn with deqidx := hn.deqidx + 1 } idx Cell.taken)
          if item = Cell.empty then
            dequeueLoop fuel (queueHazptrReset q3 tid) tid
          else
            some (item, queueHazptrReset q3 tid)

/-- `faa_queue_dequeue` (src/faaq.c lines 220-314).  An out-of-range `tid`
prints an error and returns nullptr with no effect (assertions disabled). -/
def faa_queue_dequeue (fuel : Nat) (q : FAAArrayQueue) (tid : Int) :
    Option (Cell × FAAArrayQueue) :=
  if tid < 0 ∨ q.max_threads ≤ tid then some (Cell.empty, q)
  else dequeueLoop fuel q tid

/-! ### Drivers for multi-operation runs -/

/-- Enqueue the items of `xs` in order from one thread. -/
def enqueueAll (fuel : Nat) (q : FAAArrayQueue) (xs : List Item) (tid : Int) :
    Option FAAArrayQueue :=
  match xs with
  | [] => some q
  | x :: rest =>
    match faa_queue_enqueue fuel q x tid with
    | none => none
    | some q' => enqueueAll fuel q' rest tid

/-- Dequeue `k` times from one thread, collecting the returned values. -/
def dequeueN (fuel : Nat) (q : FAAArrayQueue) (k : Nat) (tid : Int) :
    Option (List Cell × FAAArrayQueue) :=
  match k with
  | 0 => some ([], q)
  | k + 1 =>
    match faa_queue_dequeue fuel q tid with
    | none => none
    | some (c, q') =>
      match dequeueN fuel q' k tid with
      | none => none
      | some (cs, q'') => some (c :: cs, q'')

/-! ### Representation invariant for sequentially reachable queues

A node represents the list `xs` of its not-yet-consumed items: slots below
`deqidx` hold the taken sentinel, the next `xs.length` slots hold `xs` in
order, and slots from `min enqidx FAA_BUFFER_SIZE` on are still null. -/

def NodeRep (n : Node) (xs : List Item) : Prop :=
  n.deqidx + xs.length = min n.enqidx FAA_BUFFER_SIZE ∧
  (∀ i, i < n.deqidx → n.items i = Cell.taken) ∧
  (∀ i y, xs[i]? = some y → n.items (n.deqidx + i) = Cell.val y) ∧
  (∀ i, min n.enqidx FAA_BUFFER_SIZE ≤ i → n.items i = Cell.empty)

/-- Extra per-position facts: a node that is not the head has never been
touched by a dequeuer (`deqidx = 0`) and was created non-empty
(`1 ≤ enqidx`); the last node has not overflowed (`enqidx ≤ B`) while every
earlier node overflowed exactly once (`enqidx = B + 1`). -/
def nodeRepAt (isHead isLast : Prop) (n : Node) (xs : List Item) : Prop :=
  NodeRep n xs ∧
  (¬ isHead → n.deqidx = 0 ∧ 1 ≤ n.enqidx) ∧
  (isLast → n.enqidx ≤ FAA_BUFFER_SIZE) ∧
  (¬ isLast → n.enqidx = FAA_BUFFER_SIZE + 1)

/-- Invariant of every queue state reachable by complete sequential
`faa_queue_enqueue` / `faa_queue_dequeue` calls: the chain is non-empty, the
tail pointer is the last node, all hazard-pointer slots are clear between
operations, and node `k` represents `xss[k]`. -/
def QueueRep (q : FAAArrayQueue) (xss : List (List Item)) : Prop :=
  0 < q.nodes.length ∧
  q.tailPos + 1 = q.nodes.length ∧
  q.nodes.length = xss.length ∧
  (∀ t, q.holders t = none) ∧
  (∀ k ns ks, q.nodes[k]? = some ns → xss[k]? = some ks →
      nodeRepAt (k = 0) (k + 1 = q.nodes.length) ns ks)

/-- The value a sequential dequeue returns when the abstract queue content is
`l`: null when empty, else the front item. -/
def headCell : List Item → Cell
  | [] => Cell.empty
  | x :: _ => Cell.val x

/-- Values returned by `k` successive dequeues from abstract content `l`. -/
def drain (l : List Item) : Nat → List Cell
  | 0 => []
  | k + 1 =>
    match l with
    | [] => Cell.empty :: drain [] k
    | x :: rest => Cell.val x :: drain rest k

/-- Queue states reachable by complete sequential operations used within
their preconditions (valid tids, payloads that are legal items), indexed by
the list of all items ever enqueued. -/
inductive Reach : List Item → FAAArrayQueue → Prop where
  | create (alloc : Nat → Bool) (mt : Int) (q : FAAArrayQueue) :
      faa_queue_create alloc mt = .ok q → Reach [] q
  | enq (xs : List Item) (q : FAAArrayQueue) (x : Item) (tid : Int) (fuel : Nat)
      (q' : FAAArrayQueue) : Reach xs q → 0 ≤ tid → tid < q.max_threads →
      faa_queue_enqueue fuel q x tid = some q' → Reach (xs ++ [x]) q'
  | deq (xs : List Item) (q : FAAArrayQueue) (tid : Int) (fuel : Nat) (r : Cell)
      (q' : FAAArrayQueue) : Reach xs q → 0 ≤ tid → tid < q.max_threads →
      faa_queue_dequeue fuel q tid = some (r, q') → Reach xs q'

/-- The freshly created one-thread queue, used as a concrete witness state. -/
def sampleQueue : FAAArrayQueue :=
  { nodes := [create_node none], tailPos := 0, max_threads := 1, holders := fun _ => none }

/-! ### The HAZPTR_PROTECT macro (hp.h, src/unnamed/part_003 lines 75-128)

The macro is modelled against an arbitrary trace `loads : Nat → Option Nat`
of the values successive atomic loads of `*src_ptr_` return (`none` is a
null pointer); `loads 0` is the initial relaxed load and `loads (i + 1)` the
validating acquire reload of iteration `i`.  The holder's record slot
(`h_->hprec->ptr`) is the `ptr` field.  The seq-cst fence has no effect in a
sequential model. -/

structure HazptrHolder where
  ptr : Option Nat
deriving DecidableEq

/-- `hazptr_reset` (hp.h lines 75-81): store `p` into the record's slot. -/
def hazptr_reset (h : HazptrHolder) (p : Option Nat) : HazptrHolder :=
  { h with ptr := p }

/-- The `while (true)` loop of `HAZPTR_PROTECT`: protect the observed value,
fence, reload; exit when the validation reload returns the protected value,
else adopt the new value and retry.  Returns the result, the final holder
and the index of the final (validating) load. -/
def protectLoop : Nat → (Nat → Option Nat) → Nat → Option Nat → HazptrHolder →
    Option (Option Nat × HazptrHolder × Nat)
  | 0, _, _, _, _ => none
  | fuel + 1, loads, i, p, h =>
    let h' := hazptr_reset h p
    let v := loads i
    if p = v then some (p, h', i)
    else protectLoop fuel loads (i + 1) v h'

/-- `HAZPTR_PROTECT(result_, h_, src_ptr_)` (hp.h lines 101-128). -/
def HAZPTR_PROTECT (fuel : Nat) (loads : Nat → Option Nat) (h : HazptrHolder) :
    Option (Option Nat × HazptrHolder × Nat) :=
  protectLoop fuel loads 1 (loads 0) h

/-! ### Hazard-pointer engine (src/hp.c)

Sequential model of the default domain.  Retired-object descriptors carry
their address (`addr`, the `uintptr_t` of the object) and the `reclaim`
function pointer stored by `hazptr_retire` (`none` is a null function
pointer; distinct non-null functions are distinguished by a tag).  Treiber
stacks become lists with the head at the front; the khashl `scan_set` is a
deduplicated list of addresses.  Reclamation routines additionally return
the sequence of descriptors whose reclaim callback they invoked, in
invocation order. -/

/-- `HP_NUM_SHARDS` (hp.h): number of retired-list shards, a power of 2. -/
def HP_NUM_SHARDS : Nat := 8

/-- `HP_RCOUNT_THRESHOLD` (hp.h): base reclamation threshold. -/
def HP_RCOUNT_THRESHOLD : Int := 1000

/-- `HP_HCOUNT_MULTIPLIER` (hp.h): dynamic threshold multiplier. -/
def HP_HCOUNT_MULTIPLIER : Nat := 2

/-- `struct hazptr_obj` (hp.h lines 31-34): the intrusive `next_retired`
link is the list structure; `reclaim` is set by `hazptr_retire`. -/
structure HazptrObj where
  addr : Nat
  reclaim : Option Nat
deriving DecidableEq

/-- `struct hazptr_domain` (src/hp.c lines 17-32).  `hprec_ptrs` holds the
protection-slot values of the records on `hprec_list` in list order;
`hprec_count` is the allocated-record counter (a `size_t`);
`retired_count` is the signed `hazptr_count_t` (`int64_t`); `scan_set` is
`none` until lazily allocated. -/
structure HazptrDomain where
  hprec_ptrs : List (Option Nat)
  hprec_count : Nat
  scan_set : Option (List Nat)
  retired_count : Int
  reclaiming : Bool
  retired_shards : List (List HazptrObj)
deriving DecidableEq

/-- `default_domain` (src/hp.c line 35): statically zero-initialized. -/
def default_domain : HazptrDomain :=
  { hprec_ptrs := [], hprec_count := 0, scan_set := none, retired_count := 0,
    reclaiming := false, retired_shards := List.replicate HP_NUM_SHARDS [] }

/-- `calc_shard` (src/hp.c lines 187-192): `((uintptr_t) ptr >> 4) &
(HP_NUM_SHARDS - 1)`. -/
def calc_shard (addr : Nat) : Nat :=
  (addr >>> 4) &&& (HP_NUM_SHARDS - 1)

/-- Reinterpret a `size_t` (`u < 2 ^ 64`) as a two's-complement `int64_t`,
the C23 semantics of the cast in `calculate_threshold`. -/
def int64_of_uint64 (u : Nat) : Int :=
  if u % 2 ^ 64 < 2 ^ 63 then (u % 2 ^ 64 : Nat) else (u % 2 ^ 64 : Nat) - 2 ^ 64

/-- `calculate_threshold` (src/hp.c lines 195-204):
`max(HP_RCOUNT_THRESHOLD, (hazptr_count_t)(hprec_count * HP_HCOUNT_MULTIPLIER))`,
where the product is computed in `size_t` and cast to `int64_t`. -/
def calculate_threshold (d : HazptrDomain) : Int :=
  let thresh := HP_RCOUNT_THRESHOLD
  let hcount := d.hprec_count
  let dynamic_thresh := int64_of_uint64 (hcount * HP_HCOUNT_MULTIPLIER)
  if dynamic_thresh > thresh then dynamic_thresh else thresh

/-- `domain_check_threshold` (src/hp.c lines 208-225): when the retired
count reaches the threshold, claim it by swapping in 0 (the sequential CAS
succeeds at once); otherwise claim nothing. -/
def domain_check_threshold (d : HazptrDomain) : Int × HazptrDomain :=
  let rcount := d.retired_count
  let thresh := calculate_threshold d
  if rcount ≥ thresh then (rcount, { d with retired_count := 0 }) else (0, d)

/-- `ptr_set_put` (khashl): insert an address into the scan set. -/
def ptr_set_put (s : List Nat) (a : Nat) : List Nat :=
  if a ∈ s then s else a :: s

/-- The hazard-pointer collection walk of `domain_do_reclamation`
(src/hp.c lines 274-284): clear the set, walk `hprec_list` and insert every
non-null protection-slot value. -/
def collect_protected (ptrs : List (Option Nat)) : List Nat :=
  ptrs.foldl (fun acc p => match p with | some a => ptr_set_put acc a | none => acc) []

/-- The match-and-reclaim walk of `domain_do_reclamation` (src/hp.c lines
286-316) over one extracted retired list in traversal order: protected
objects are kept on the `remaining` list (in order), unprotected ones have
their reclaim callback invoked when non-null and are counted as freed.
Returns `(remaining, invoked, freed)`. -/
def scan_retired (prot : List Nat) : List HazptrObj → List HazptrObj × List HazptrObj × Nat
  | [] => ([], [], 0)
  | o :: rest =>
    let r := scan_retired prot rest
    if o.addr ∈ prot then (o :: r.1, r.2.1, r.2.2)
    else (r.1, (if o.reclaim.isSome then o :: r.2.1 else r.2.1), r.2.2 + 1)

/-- `true` when every retired shard is empty (src/hp.c lines 342-348). -/
def shardsAllEmpty (d : HazptrDomain) : Bool :=
  d.retired_shards.all (fun l => l.isEmpty)

/-- The reclamation loop of `domain_do_reclamation` (src/hp.c lines
252-354), with explicit fuel; the accumulator collects invoked callbacks.
Each iteration: exchange every shard head with null; if anything was
extracted, rebuild the scan set from the hazard pointers, match and
reclaim, and push the survivors back onto shard 0; add the residual count
back to `retired_count`; re-check the threshold and exit once nothing is
claimed and every shard is empty. -/
def reclaimLoop : Nat → HazptrDomain → Int → List HazptrObj →
    Option (HazptrDomain × List HazptrObj)
  | 0, _, _, _ => none
  | fuel + 1, d, rcount0, acc =>
    let extracted := d.retired_shards
    let d1 := { d with retired_shards := List.replicate HP_NUM_SHARDS [] }
    if extracted.any (fun l => !l.isEmpty) then
      let prot := collect_protected d1.hprec_ptrs
      let d2 := { d1 with scan_set := some prot }
      let scanned := scan_retired prot extracted.flatten
      let d3 :=
        if scanned.1.isEmpty then d2
        else { d2 with retired_shards :=
          d2.retired_shards.set 0 (scanned.1 ++ d2.retired_shards.getD 0 []) }
      let rcount1 := rcount0 - (scanned.2.2 : Int)
      let d4 := if rcount1 ≠ 0 then { d3 with retired_count := d3.retired_count + rcount1 } else d3
      let next := domain_check_threshold d4
      if next.1 = 0 ∧ shardsAllEmpty next.2 then some (next.2, acc ++ scanned.2.1)
      else reclaimLoop fuel next.2 next.1 (acc ++ scanned.2.1)
    else
      let d4 := if rcount0 ≠ 0 then { d1 with retired_count := d1.retired_count + rcount0 } else d1
      let next := domain_check_threshold d4
      if next.1 = 0 ∧ shardsAllEmpty next.2 then some (next.2, acc)
      else reclaimLoop fuel next.2 next.1 acc

/-- The lazy `scan_set` allocation of `domain_do_reclamation` (src/hp.c
lines 240-246): `ptr_set_init()` on first use (the model assumes the
allocation succeeds; the source `abort()`s otherwise). -/
def scanSetInit (d : HazptrDomain) : HazptrDomain :=
  if d.scan_set = none then { d with scan_set := some [] } else d

/-- `domain_do_reclamation` (src/hp.c lines 228-358).  If the `reclaiming`
flag is already set, the claimed count is returned to `retired_count` (when
non-zero) and nothing else happens; otherwise the flag is taken, the scan
set is lazily allocated, the reclamation loop runs and the flag is
released. -/
def domain_do_reclamation (fuel : Nat) (d : HazptrDomain) (claimed_count : Int) :
    Option (HazptrDomain × List HazptrObj) :=
  if d.reclaiming then
    some ((if claimed_count ≠ 0
      then { d with retired_count := d.retired_count + claimed_count } else d), [])
  else
    let d2 := scanSetInit { d with reclaiming := true }
    match reclaimLoop fuel d2 claimed_count [] with
    | none => none
    | some (d3, invoked) => some ({ d3 with reclaiming := false }, invoked)

/-- The push stage of `hazptr_retire` (src/hp.c lines 414-433): store the
reclaim function in the descriptor, CAS-push it onto shard
`calc_shard addr`, and increment the centralized `retired_count`. -/
def retirePush (d : HazptrDomain) (addr : Nat) (reclaim_fn : Option Nat) : HazptrDomain :=
  let o : HazptrObj := { addr := addr, reclaim := reclaim_fn }
  let i := calc_shard addr
  let d1 := { d with retired_shards :=
    d.retired_shards.set i (o :: d.retired_shards.getD i []) }
  { d1 with retired_count := d1.retired_count + 1 }

/-- `hazptr_retire(obj, reclaim_fn)` (src/hp.c lines 408-440).  A null
`obj` returns immediately.  Otherwise the descriptor's `reclaim` field is
set, the object is pushed onto shard `calc_shard addr`, the centralized
count is incremented, and a positive claimed count triggers reclamation. -/
def hazptr_retire (fuel : Nat) (d : HazptrDomain) (obj : Option Nat) (reclaim_fn : Option Nat) :
    Option (HazptrDomain × List HazptrObj) :=
  match obj with
  | none => some (d, [])
  | some addr =>
    let d2 := retirePush d addr reclaim_fn
    let next := domain_check_threshold d2
    if next.1 > 0 then domain_do_reclamation fuel next.2 next.1 else some (next.2, [])

/-- `hazptr_cleanup` (src/hp.c lines 442-456): claim whatever count
remains (clamping a transient negative count back), then force a
reclamation pass. -/
def hazptr_cleanup (fuel : Nat) (d : HazptrDomain) : Option (HazptrDomain × List HazptrObj) :=
  let rcount := d.retired_count
  let d1 := { d with retired_count := 0 }
  let stage := if rcount < 0
    then ({ d1 with retired_count := d1.retired_count + rcount }, (0 : Int))
    else (d1, rcount)
  domain_do_reclamation fuel stage.1 stage.2

/-- Retire a whole list of (address, reclaim-fn) pairs in order, collecting
every callback invocation. -/
def retireAll (fuel : Nat) : HazptrDomain → List (Nat × Option Nat) →
    Option (HazptrDomain × List HazptrObj)
  | d, [] => some (d, [])
  | d, (a, fn) :: rest =>
    match hazptr_retire fuel d (some a) fn with
    | none => none
    | some (d1, inv) =>
      match retireAll fuel d1 rest with
      | none => none
      | some (d2, inv2) => some (d2, inv ++ inv2)

/-- A domain in the middle of a reclamation pass, as a concrete witness. -/
def busyDomain : HazptrDomain :=
  { default_domain with reclaiming := true, retired_count := 7 }

/-- C7 counterexample input: a domain whose record count makes the `size_t`
product `hprec_count * HP_HCOUNT_MULTIPLIER` wrap to 0 before the cast to
`hazptr_count_t`. -/
def overflowDomain : HazptrDomain :=
  { default_domain with hprec_count := 2 ^ 63 }

/-! ### Quiescent reclamation (claim C2) -/

/-- All retired objects currently on the domain's shards, shard 0 first. -/
def totalRetired (d : HazptrDomain) : List HazptrObj :=
  d.retired_shards.flatten

/-- A quiescent domain: nobody is reclaiming, no protection slot is
occupied, the shard array has its static size, the centralized count agrees
with the shard contents, and every retired descriptor carries a (non-null)
reclaim callback. -/
def QuiescentInv (d : HazptrDomain) : Prop :=
  d.reclaiming = false ∧
  (∀ p ∈ d.hprec_ptrs, p = none) ∧
  d.retired_shards.length = HP_NUM_SHARDS ∧
  d.retired_count = ((totalRetired d).length : Int) ∧
  (∀ o ∈ totalRetired d, o.reclaim.isSome = true)

/-- C2 counterexample input: 1000 distinct non-null descriptors with
non-null callbacks, enough to reach the base threshold during the retire
sequence itself. -/
def thousandRetires : List (Nat × Option Nat) :=
  (List.range 1000).map (fun i => (16 * (i + 1), some 0))

/-- The first 999 of the 1000 counterexample retires. -/
def firstRetires : List (Nat × Option Nat) :=
  (List.range 999).map (fun i => (16 * (i + 1), some 0))

theorem drain_full (l : List Item) (m : Nat) :
    drain l (l.length + m) = l.map Cell.val ++ List.replicate m Cell.empty := by
  induction l with
  | nil =>
    simp only [List.length_nil, Nat.zero_add, List.map_nil, List.nil_append]
    induction m with
    | zero => rfl
    | succ m ih => simpa [drain, List.replicate_succ] using ih
  | cons x rest ih =>
    have hlen : (x :: rest).length + m = (rest.length + m) + 1 := by simp; omega
    rw [hlen]
    simpa [drain] using ih

/-- Successful creation yields exactly the initial one-sentinel queue. -/
theorem faa_queue_create_ok (alloc : Nat → Bool) (mt : Int) (q : FAAArrayQueue)
    (h : faa_queue_create alloc mt = .ok q) :
    q = { nodes := [create_node none], tailPos := 0, max_threads := mt,
          holders := fun _ => none } := by
  unfold faa_queue_create at h
  split at h
  · exact absurd h (by simp)
  · split at h
    · exact absurd h (by simp)
    · split at h
      · exact absurd h (by simp)
      · split at h
        · exact absurd h (by simp)
        · split at h
          · exact absurd h (by simp)
          · split at h
            · exact absurd h (by simp)
            · cases h; rfl

/-- The initial queue satisfies the invariant with abstract content `[[]]`. -/
theorem queueRep_initial (alloc : Nat → Bool) (mt : Int) (q : FAAArrayQueue)
    (h : faa_queue_create alloc mt = .ok q) : QueueRep q [[]] := by
  cases faa_queue_create_ok alloc mt q h
  refine ⟨by simp, by simp, by simp, fun t => rfl, ?_⟩
  intro k ns ks hns hks
  have hk : k = 0 := by
    by_contra hk0
    rcases k with _ | k
    · exact hk0 rfl
    · simp at hns
  subst hk
  simp only [List.getElem?_cons_zero, Option.some.injEq] at hns hks
  subst hns; subst hks
  refine ⟨⟨by simp [create_node, FAA_BUFFER_SIZE], ?_, ?_, ?_⟩, fun h => absurd rfl h,
    fun _ => by simp [create_node, FAA_BUFFER_SIZE], fun h => absurd rfl h⟩
  · intro i hi; simp [create_node] at hi
  · intro i y hy; simp at hy
  · intro i _; simp [create_node]

/-! ### Projection lemmas for the state helpers -/

@[simp] theorem queueProtect_nodes (q : FAAArrayQueue) (tid : Int) (p : Nat) :
    (queueProtect q tid p).nodes = q.nodes := rfl

@[simp] theorem queueProtect_tailPos (q : FAAArrayQueue) (tid : Int) (p : Nat) :
    (queueProtect q tid p).tailPos = q.tailPos := rfl

@[simp] theorem queueProtect_max_threads (q : FAAArrayQueue) (tid : Int) (p : Nat) :
    (queueProtect q tid p).max_threads = q.max_threads := rfl

@[simp] theorem queueHazptrReset_nodes (q : FAAArrayQueue) (tid : Int) :
    (queueHazptrReset q tid).nodes = q.nodes := rfl

@[simp] theorem queueHazptrReset_tailPos (q : FAAArrayQueue) (tid : Int) :
    (queueHazptrReset q tid).tailPos = q.tailPos := rfl

@[simp] theorem queueHazptrReset_max_threads (q : FAAArrayQueue) (tid : Int) :
    (queueHazptrReset q tid).max_threads = q.max_threads := rfl

@[simp] theorem setNode_nodes (q : FAAArrayQueue) (i : Nat) (n : Node) :
    (setNode q i n).nodes = q.nodes.set i n := rfl

@[simp] theorem setNode_tailPos (q : FAAArrayQueue) (i : Nat) (n : Node) :
    (setNode q i n).tailPos = q.tailPos := rfl

@[simp] theorem setNode_max_threads (q : FAAArrayQueue) (i : Nat) (n : Node) :
    (setNode q i n).max_threads = q.max_threads := rfl

@[simp] theorem setNode_holders (q : FAAArrayQueue) (i : Nat) (n : Node) :
    (setNode q i n).holders = q.holders := rfl

@[simp] theorem setSlot_deqidx (n : Node) (i : Nat) (c : Cell) :
    (setSlot n i c).deqidx = n.deqidx := rfl

@[simp] theorem setSlot_enqidx (n : Node) (i : Nat) (c : Cell) :
    (setSlot n i c).enqidx = n.enqidx := rfl

theorem setSlot_items (n : Node) (i : Nat) (c : Cell) (j : Nat) :
    (setSlot n i c).items j = if j = i then c else n.items j := rfl

theorem queueProtect_holders (q : FAAArrayQueue) (tid t : Int) (p : Nat) :
    (queueProtect q tid p).holders t = if t = tid then some p else q.holders t := rfl

theorem queueHazptrReset_holders (q : FAAArrayQueue) (tid t : Int) :
    (queueHazptrReset q tid).holders t = if t = tid then none else q.holders t := rfl

/-- Replacing the last element `ks` of `xss` by `ks ++ zs` appends `zs` to the
flattening. -/
theorem flatten_set_last (xss : List (List Item)) (k : Nat) (ks zs : List Item)
    (hk : k + 1 = xss.length) (hks : xss[k]? = some ks) :
    (xss.set k (ks ++ zs)).flatten = xss.flatten ++ zs := by
  induction xss generalizing k with
  | nil => simp at hks
  | cons a rest ih =>
    cases k with
    | zero =>
      have hrest : rest = [] := by
        cases rest with
        | nil => rfl
        | cons b t => simp at hk
      subst hrest
      simp only [List.getElem?_cons_zero, Option.some.injEq] at hks
      subst hks
      simp
    | succ j =>
      have hk' : j + 1 = rest.length := by simpa using hk
      have hks' : rest[j]? = some ks := by simpa using hks
      have := ih j hk' hks'
      simp only [List.set_cons_succ, List.flatten_cons, this, List.append_assoc]

/-- One complete sequential `faa_queue_enqueue` call from an invariant state:
it succeeds with any positive fuel, its result does not depend on the fuel,
the invariant is preserved and the item is appended to the abstract
contents. -/
theorem enqueue_step (q : FAAArrayQueue) (xss : List (List Item)) (item : Item) (tid : Int)
    (hrep : QueueRep q xss) (h0 : 0 ≤ tid) (h1 : tid < q.max_threads) :
    ∃ q' xss', (∀ fuel, faa_queue_enqueue (fuel + 1) q item tid = some q') ∧
      (∀ fuel r, faa_queue_enqueue fuel q item tid = some r → r = q') ∧
      QueueRep q' xss' ∧ xss'.flatten = xss.flatten ++ [item] ∧
      q'.max_threads = q.max_threads := by
  obtain ⟨hpos0, hpos, hlen, hhold, hnodes⟩ := hrep
  have hinv : ¬ (tid < 0 ∨ q.max_threads ≤ tid) := by omega
  have hlt : q.tailPos < q.nodes.length := by omega
  have hlt' : q.tailPos < xss.length := by omega
  have hget : q.nodes[q.tailPos]? = some (q.nodes.get ⟨q.tailPos, hlt⟩) :=
    List.getElem?_eq_getElem hlt
  have hgetks : xss[q.tailPos]? = some (xss.get ⟨q.tailPos, hlt'⟩) :=
    List.getElem?_eq_getElem hlt'
  obtain ⟨⟨ha, hb, hc, hd⟩, hhead, hlast, _⟩ :=
    hnodes q.tailPos (q.nodes.get ⟨q.tailPos, hlt⟩) (xss.get ⟨q.tailPos, hlt'⟩) hget hgetks
  set tn := q.nodes.get ⟨q.tailPos, hlt⟩ with htn_def
  set ks := xss.get ⟨q.tailPos, hlt'⟩ with hks_def
  have henqB : tn.enqidx ≤ FAA_BUFFER_SIZE := hlast hpos
  by_cases hfull : FAA_BUFFER_SIZE ≤ tn.enqidx
  · -- slow path: the last node is full, a new node is appended
    have htnB : tn.enqidx = FAA_BUFFER_SIZE := Nat.le_antisymm henqB hfull
    have hnolnext : ¬ (q.tailPos + 1 < q.nodes.length) := by omega
    set qS : FAAArrayQueue :=
      { nodes := q.nodes.set q.tailPos { tn with enqidx := tn.enqidx + 1 }
            ++ [create_node (some item)],
        tailPos := q.tailPos + 1,
        max_threads := q.max_threads,
        holders := fun t => if t = tid then none
          else if t = tid then some q.tailPos else q.holders t } with hqS_def
    have hcomp : ∀ fuel, faa_queue_enqueue (fuel + 1) q item tid = some qS := by
      intro fuel
      rw [faa_queue_enqueue, if_neg hinv]
      simp only [enqueueLoop, queueProtect_nodes, queueProtect_tailPos, setNode_nodes,
        setNode_tailPos, List.length_set, hget]
      rw [if_pos hfull]
      rw [if_neg (show ¬ (q.tailPos ≠ q.tailPos) from fun h => h rfl)]
      rw [if_neg hnolnext]
      rfl
    refine ⟨qS, xss ++ [[item]], hcomp, ?_, ?_, by simp, rfl⟩
    · intro fuel r hr
      cases fuel with
      | zero =>
        rw [faa_queue_enqueue, if_neg hinv] at hr
        exact absurd hr (by simp [enqueueLoop])
      | succ f =>
        rw [hcomp f] at hr
        exact (Option.some.inj hr).symm
    · -- the invariant after appending a node
      have hqSlen : qS.nodes.length = q.nodes.length + 1 := by simp [hqS_def]
      refine ⟨by omega, by simp [hqS_def]; omega, by simp [hqS_def]; omega, ?_, ?_⟩
      · intro t
        by_cases ht : t = tid <;> simp [hqS_def, ht, hhold t]
      · intro k ns ks' hk hks'
        by_cases hkL : k < q.nodes.length
        · have hk2 : (q.nodes.set q.tailPos { tn with enqidx := tn.enqidx + 1 })[k]? = some ns := by
            rw [hqS_def] at hk
            rwa [List.getElem?_append_left (by simpa using hkL)] at hk
          have hks2 : xss[k]? = some ks' := by
            rwa [List.getElem?_append_left (by omega)] at hks'
          by_cases hklt : k = q.tailPos
          · subst hklt
            have hns : ns = { tn with enqidx := tn.enqidx + 1 } := by
              rw [List.getElem?_set_self (by omega)] at hk2
              exact (Option.some.inj hk2).symm
            have hks3 : ks' = ks := by
              rw [hgetks] at hks2
              exact (Option.some.inj hks2).symm
            subst hns; subst hks3
            refine ⟨⟨by simp; omega, hb, hc, ?_⟩, ?_, ?_, ?_⟩
            · intro i hi
              exact hd i (by simp at hi ⊢; omega)
            · intro h
              obtain ⟨hdq, hen⟩ := hhead h
              exact ⟨hdq, Nat.succ_le_succ (Nat.zero_le _)⟩
            · intro habs
              rw [hqSlen] at habs
              omega
            · intro _
              simp
              omega
          · have hk3 : q.nodes[k]? = some ns := by
              rwa [List.getElem?_set_ne (fun h => hklt h.symm)] at hk2
            obtain ⟨hNR, hH, hL1, hL2⟩ := hnodes k ns ks' hk3 hks2
            refine ⟨hNR, hH, ?_, ?_⟩
            · intro habs
              rw [hqSlen] at habs
              omega
            · intro _
              exact hL2 (by omega)
        · by_cases hkeq : k = q.nodes.length
          · subst hkeq
            have hns : ns = create_node (some item) := by
              rw [hqS_def] at hk
              rw [List.getElem?_append_right (by simp)] at hk
              simp at hk
              exact hk.symm
            have hks3 : ks' = [item] := by
              rw [List.getElem?_append_right (by omega)] at hks'
              rw [hlen] at hks'
              simp at hks'
              exact hks'.symm
            subst hns; subst hks3
            refine ⟨⟨?_, ?_, ?_, ?_⟩, ?_, ?_, ?_⟩
            · simp [create_node, FAA_BUFFER_SIZE]
            · intro i hi
              simp [create_node] at hi
            · intro i y hy
              cases i with
              | zero =>
                simp at hy
                subst hy
                simp [create_node]
              | succ j => simp at hy
            · intro i hi
              have hi0 : i ≠ 0 := by
                simp [create_node, FAA_BUFFER_SIZE] at hi
                omega
              simp [create_node, hi0]
            · intro _
              simp [create_node]
            · intro _
              simp [create_node, FAA_BUFFER_SIZE]
            · intro habs
              rw [hqSlen] at habs
              omega
          · exfalso
            have : qS.nodes.length ≤ k := by omega
            rw [List.getElem?_eq_none this] at hk
            exact Option.noConfusion hk
  · -- fast path: store into the claimed slot
    have hlt2 : tn.enqidx < FAA_BUFFER_SIZE := by omega
    have hmin : tn.enqidx ⊓ FAA_BUFFER_SIZE = tn.enqidx := by omega
    have hempty : tn.items tn.enqidx = Cell.empty := hd tn.enqidx (by omega)
    set nodeF := setSlot { tn with enqidx := tn.enqidx + 1 } tn.enqidx (Cell.val item)
      with hnodeF_def
    set qF : FAAArrayQueue :=
      { nodes := (q.nodes.set q.tailPos { tn with enqidx := tn.enqidx + 1 }).set q.tailPos nodeF,
        tailPos := q.tailPos,
        max_threads := q.max_threads,
        holders := fun t => if t = tid then none
          else if t = tid then some q.tailPos else q.holders t } with hqF_def
    have hcomp : ∀ fuel, faa_queue_enqueue (fuel + 1) q item tid = some qF := by
      intro fuel
      rw [faa_queue_enqueue, if_neg hinv]
      simp only [enqueueLoop, queueProtect_nodes, queueProtect_tailPos, setNode_nodes,
        setNode_tailPos, List.length_set, hget]
      rw [if_neg hfull]
      rw [if_pos hempty]
      rfl
    have hqFnodes : qF.nodes = q.nodes.set q.tailPos nodeF := by
      simp [hqF_def, List.set_set]
    refine ⟨qF, xss.set q.tailPos (ks ++ [item]), hcomp, ?_, ?_, ?_, rfl⟩
    · intro fuel r hr
      cases fuel with
      | zero =>
        rw [faa_queue_enqueue, if_neg hinv] at hr
        exact absurd hr (by simp [enqueueLoop])
      | succ f =>
        rw [hcomp f] at hr
        exact (Option.some.inj hr).symm
    · -- the invariant after publishing into the slot
      have hqFlen : qF.nodes.length = q.nodes.length := by simp [hqF_def]
      refine ⟨by omega, by simp [hqF_def]; omega, by simp [hqF_def]; omega, ?_, ?_⟩
      · intro t
        by_cases ht : t = tid <;> simp [hqF_def, ht, hhold t]
      · intro k ns ks' hk hks'
        rw [hqFnodes] at hk
        by_cases hklt : k = q.tailPos
        · subst hklt
          have hns : ns = nodeF := by
            rw [List.getElem?_set_self (by omega)] at hk
            exact (Option.some.inj hk).symm
          have hks3 : ks' = ks ++ [item] := by
            rw [List.getElem?_set_self (by omega)] at hks'
            exact (Option.some.inj hks').symm
          subst hns; subst hks3
          have hdeq_le : tn.deqidx + ks.length = tn.enqidx := by omega
          refine ⟨⟨?_, ?_, ?_, ?_⟩, ?_, ?_, ?_⟩
          · simp [hnodeF_def]
            omega
          · intro i hi
            simp only [hnodeF_def, setSlot_deqidx] at hi
            rw [hnodeF_def, setSlot_items]
            rw [if_neg (by omega)]
            exact hb i hi
          · intro i y hy
            rw [hnodeF_def, setSlot_items]
            simp only [setSlot_deqidx]
            by_cases hik : i < ks.length
            · rw [List.getElem?_append_left hik] at hy
              rw [if_neg (by omega)]
              exact hc i y hy
            · have hik2 : i = ks.length := by
                by_contra hne
                rw [List.getElem?_eq_none (by simp; omega)] at hy
                exact Option.noConfusion hy
              subst hik2
              rw [List.getElem?_concat_length] at hy
              cases hy
              rw [if_pos (by omega)]
          · intro i hi
            simp only [hnodeF_def, setSlot_enqidx] at hi
            rw [hnodeF_def, setSlot_items]
            rw [if_neg (by omega)]
            exact hd i (by omega)
          · intro h
            obtain ⟨hdq, hen⟩ := hhead h
            refine ⟨by simp [hnodeF_def, hdq], Nat.succ_le_succ (Nat.zero_le _)⟩
          · intro _
            simp [hnodeF_def]
            omega
          · intro habs
            rw [hqFlen] at habs
            exact absurd hpos habs
        · have hk3 : q.nodes[k]? = some ns := by
            rwa [List.getElem?_set_ne (fun h => hklt h.symm)] at hk
          have hks3 : xss[k]? = some ks' := by
            rwa [List.getElem?_set_ne (fun h => hklt h.symm)] at hks'
          obtain ⟨hNR, hH, hL1, hL2⟩ := hnodes k ns ks' hk3 hks3
          refine ⟨hNR, hH, ?_, ?_⟩
          · intro habs
            rw [hqFlen] at habs
            exact hL1 habs
          · intro habs
            rw [hqFlen] at habs
            exact hL2 habs
    · exact flatten_set_last xss q.tailPos ks [item] (by omega) hgetks

theorem drop_one_set_zero {α : Type} (l : List α) (a : α) : (l.set 0 a).drop 1 = l.drop 1 := by
  cases l <;> rfl

/-- Sequential dequeue from an invariant state whose head node still holds an
item: one fast-path iteration returns that item. -/
theorem dequeue_step_cons (q : FAAArrayQueue) (y : Item) (ys : List Item)
    (rest : List (List Item)) (tid : Int)
    (hrep : QueueRep q ((y :: ys) :: rest)) (h0 : 0 ≤ tid) (h1 : tid < q.max_threads) :
    ∃ q', (∀ fuel, dequeueLoop (fuel + 1) q tid = some (Cell.val y, q')) ∧
      QueueRep q' (ys :: rest) ∧ q'.max_threads = q.max_threads := by
  obtain ⟨hpos0, hpos, hlen, hhold, hnodes⟩ := hrep
  have hget : q.nodes[0]? = some (q.nodes.get ⟨0, hpos0⟩) := List.getElem?_eq_getElem hpos0
  obtain ⟨⟨ha, hb, hc, hd⟩, _, hL1, hL2⟩ :=
    hnodes 0 (q.nodes.get ⟨0, hpos0⟩) (y :: ys) hget (by simp)
  set hn := q.nodes.get ⟨0, hpos0⟩ with hhn_def
  have hdltmin : hn.deqidx < hn.enqidx ⊓ FAA_BUFFER_SIZE := by
    simp only [List.length_cons] at ha
    omega
  have hitem : hn.items hn.deqidx = Cell.val y := by
    have := hc 0 y (by simp)
    simpa using this
  set nodeD := setSlot { hn with deqidx := hn.deqidx + 1 } hn.deqidx Cell.taken with hnodeD_def
  set qD : FAAArrayQueue :=
    { nodes := (q.nodes.set 0 { hn with deqidx := hn.deqidx + 1 }).set 0 nodeD,
      tailPos := q.tailPos,
      max_threads := q.max_threads,
      holders := fun t => if t = tid then none
        else if t = tid then some 0 else q.holders t } with hqD_def
  have hqDnodes : qD.nodes = q.nodes.set 0 nodeD := by simp [hqD_def, List.set_set]
  refine ⟨qD, ?_, ?_, rfl⟩
  · intro fuel
    simp only [dequeueLoop, queueProtect_nodes, queueProtect_tailPos, setNode_nodes,
      setNode_tailPos, List.length_set, hget]
    rw [if_neg (fun hcon => by omega)]
    rw [if_neg (show ¬ FAA_BUFFER_SIZE ≤ hn.deqidx by omega)]
    rw [hitem]
    rw [if_neg (fun hcon => Cell.noConfusion hcon)]
    rfl
  · have hqDlen : qD.nodes.length = q.nodes.length := by simp [hqD_def]
    refine ⟨by omega, by simp [hqD_def]; omega, by simpa [hqD_def] using hlen, ?_, ?_⟩
    · intro t
      by_cases ht : t = tid <;> simp [hqD_def, ht, hhold t]
    · intro k ns ks' hk hks'
      rw [hqDnodes] at hk
      cases k with
      | zero =>
        have hns : ns = nodeD := by
          rw [List.getElem?_set_self (by omega)] at hk
          exact (Option.some.inj hk).symm
        have hks3 : ks' = ys := by
          simp only [List.getElem?_cons_zero, Option.some.injEq] at hks'
          exact hks'.symm
        subst hns; subst hks3
        refine ⟨⟨?_, ?_, ?_, ?_⟩, fun h => absurd rfl h, ?_, ?_⟩
        · simp only [hnodeD_def, setSlot_deqidx, setSlot_enqidx, List.length_cons] at ha ⊢
          omega
        · intro i hi
          simp only [hnodeD_def, setSlot_deqidx] at hi
          rw [hnodeD_def, setSlot_items]
          by_cases hieq : i = hn.deqidx
          · rw [if_pos hieq]
          · rw [if_neg hieq]
            exact hb i (by omega)
        · intro i y' hy'
          rw [hnodeD_def, setSlot_items]
          simp only [setSlot_deqidx]
          rw [if_neg (by omega)]
          have harith : hn.deqidx + 1 + i = hn.deqidx + (i + 1) := by omega
          rw [harith]
          exact hc (i + 1) y' (by simpa using hy')
        · intro i hi
          simp only [hnodeD_def, setSlot_enqidx] at hi
          rw [hnodeD_def, setSlot_items]
          rw [if_neg (by omega)]
          exact hd i (by omega)
        · intro hL
          rw [hqDlen] at hL
          simpa [hnodeD_def] using hL1 hL
        · intro hL
          rw [hqDlen] at hL
          simpa [hnodeD_def] using hL2 hL
      | succ j =>
        have hk3 : q.nodes[j + 1]? = some ns := by
          rwa [List.getElem?_set_ne (by omega)] at hk
        have hks3 : ((y :: ys) :: rest)[j + 1]? = some ks' := by
          simpa using hks'
        obtain ⟨hNR, hH, hL1', hL2'⟩ := hnodes (j + 1) ns ks' hk3 hks3
        refine ⟨hNR, hH, ?_, ?_⟩
        · intro hL
          rw [hqDlen] at hL
          exact hL1' hL
        · intro hL
          rw [hqDlen] at hL
          exact hL2' hL

/-- Sequential dequeue from the empty single-node queue: the pre-check fires
and null is returned with no index claimed. -/
theorem dequeue_step_empty_single (q : FAAArrayQueue) (tid : Int)
    (hrep : QueueRep q [[]]) (h0 : 0 ≤ tid) (h1 : tid < q.max_threads) :
    ∃ q', (∀ fuel, dequeueLoop (fuel + 1) q tid = some (Cell.empty, q')) ∧
      QueueRep q' [[]] ∧ q'.max_threads = q.max_threads := by
  obtain ⟨hpos0, hpos, hlen, hhold, hnodes⟩ := hrep
  have hL1 : q.nodes.length = 1 := by simpa using hlen
  have hget : q.nodes[0]? = some (q.nodes.get ⟨0, hpos0⟩) := List.getElem?_eq_getElem hpos0
  obtain ⟨⟨ha, hb, hc, hd⟩, _, hlast, _⟩ :=
    hnodes 0 (q.nodes.get ⟨0, hpos0⟩) [] hget (by simp)
  set hn := q.nodes.get ⟨0, hpos0⟩ with hhn_def
  have henqB : hn.enqidx ≤ FAA_BUFFER_SIZE := hlast (by omega)
  have hdeq : hn.enqidx ≤ hn.deqidx := by
    simp only [List.length_nil] at ha
    omega
  refine ⟨{ nodes := q.nodes, tailPos := q.tailPos, max_threads := q.max_threads,
            holders := fun t => if t = tid then none
              else if t = tid then some 0 else q.holders t }, ?_, ?_, rfl⟩
  · intro fuel
    simp only [dequeueLoop, queueProtect_nodes, queueProtect_tailPos, hget]
    rw [if_pos ⟨hdeq, by rw [if_neg (by omega)]⟩]
    rfl
  · refine ⟨by simpa using hpos0, by simpa using hpos, by simpa using hlen, ?_, ?_⟩
    · intro t
      by_cases ht : t = tid <;> simp [ht, hhold t]
    · intro k ns ks' hk hks'
      exact hnodes k ns ks' hk hks'

/-- Sequential dequeue whose head node is drained but has a successor: the
slow path advances the head (retiring the old one) and retries on the new
head, whose first abstract list is provably non-empty. -/
theorem dequeue_step_advance (q : FAAArrayQueue) (rest : List (List Item)) (tid : Int)
    (hrep : QueueRep q ([] :: rest)) (hne : rest ≠ []) (h0 : 0 ≤ tid) (h1 : tid < q.max_threads) :
    ∃ q3r y ys rest', rest = (y :: ys) :: rest' ∧ QueueRep q3r ((y :: ys) :: rest') ∧
      q3r.max_threads = q.max_threads ∧
      (∀ fuel, dequeueLoop (fuel + 1) q tid = dequeueLoop fuel q3r tid) := by
  obtain ⟨hpos0, hpos, hlen, hhold, hnodes⟩ := hrep
  have hL2 : 2 ≤ q.nodes.length := by
    cases rest with
    | nil => exact absurd rfl hne
    | cons a t => simp at hlen; omega
  have hget : q.nodes[0]? = some (q.nodes.get ⟨0, hpos0⟩) := List.getElem?_eq_getElem hpos0
  obtain ⟨⟨ha, hb, hc, hd⟩, _, _, hnotlast⟩ :=
    hnodes 0 (q.nodes.get ⟨0, hpos0⟩) [] hget (by simp)
  set hn := q.nodes.get ⟨0, hpos0⟩ with hhn_def
  have henq : hn.enqidx = FAA_BUFFER_SIZE + 1 := hnotlast (by omega)
  have hdeq : hn.deqidx = FAA_BUFFER_SIZE := by
    simp only [List.length_nil] at ha
    omega
  -- the node after the head
  have h1lt : 1 < q.nodes.length := by omega
  have hget1 : q.nodes[1]? = some (q.nodes.get ⟨1, h1lt⟩) := List.getElem?_eq_getElem h1lt
  have hrest0 : 0 < rest.length := by
    cases rest with
    | nil => exact absurd rfl hne
    | cons a t => simp
  have hgetks1 : ([] :: rest)[1]? = some (rest.get ⟨0, hrest0⟩) := by
    simpa using List.getElem?_eq_getElem hrest0
  obtain ⟨⟨ha1, _, _, _⟩, hH1, _, _⟩ :=
    hnodes 1 (q.nodes.get ⟨1, h1lt⟩) (rest.get ⟨0, hrest0⟩) hget1 hgetks1
  obtain ⟨hdeq1, henq1⟩ := hH1 (by omega)
  have hks1ne : rest.get ⟨0, hrest0⟩ ≠ [] := by
    intro habs
    rw [habs] at ha1
    simp only [List.length_nil, hdeq1] at ha1
    have hBpos : 0 < FAA_BUFFER_SIZE := by decide
    omega
  obtain ⟨y, ys, hys⟩ : ∃ y ys, rest.get ⟨0, hrest0⟩ = y :: ys := by
    cases hrg : rest.get ⟨0, hrest0⟩ with
    | nil => exact absurd hrg hks1ne
    | cons a t => exact ⟨a, t, rfl⟩
  obtain ⟨rest', hrest'⟩ : ∃ rest', rest = (y :: ys) :: rest' := by
    cases rest with
    | nil => exact absurd rfl hne
    | cons a t =>
      simp only [List.get] at hys
      exact ⟨t, by rw [hys]⟩
  set q3r : FAAArrayQueue :=
    { nodes := (q.nodes.set 0 { hn with deqidx := hn.deqidx + 1 }).drop 1,
      tailPos := q.tailPos - 1,
      max_threads := q.max_threads,
      holders := fun t => if t = tid then none
        else if t = tid then some 0 else q.holders t } with hq3r_def
  have hq3rnodes : q3r.nodes = q.nodes.drop 1 := by
    simp only [hq3r_def]
    exact drop_one_set_zero q.nodes _
  refine ⟨q3r, y, ys, rest', hrest', ?_, rfl, ?_⟩
  · -- invariant for the advanced queue
    have hq3rlen : q3r.nodes.length = q.nodes.length - 1 := by
      rw [hq3rnodes]; simp
    rw [← hrest']
    refine ⟨by omega, by simp only [hq3r_def]; simp; omega, by rw [hq3rlen]; simp at hlen ⊢; omega,
      ?_, ?_⟩
    · intro t
      by_cases ht : t = tid <;> simp [hq3r_def, ht, hhold t]
    · intro k ns ks' hk hks'
      rw [hq3rnodes, List.getElem?_drop] at hk
      have hks2 : ([] :: rest)[1 + k]? = some ks' := by
        have : 1 + k = k + 1 := by omega
        rw [this]
        simpa using hks'
      obtain ⟨hNR, hH, hL1', hL2'⟩ := hnodes (1 + k) ns ks' hk hks2
      refine ⟨hNR, fun _ => hH (by omega), ?_, ?_⟩
      · intro hL
        rw [hq3rlen] at hL
        exact hL1' (by omega)
      · intro hL
        rw [hq3rlen] at hL
        exact hL2' (by omega)
  · intro fuel
    simp only [dequeueLoop, queueProtect_nodes, queueProtect_tailPos, setNode_nodes,
      setNode_tailPos, List.length_set, hget]
    rw [if_neg (fun hcon => by omega)]
    rw [if_pos (show FAA_BUFFER_SIZE ≤ hn.deqidx by omega)]
    rw [if_pos h1lt]
    rfl

/-- One complete sequential `faa_queue_dequeue` call from an invariant state:
with fuel at least two it returns the front of the abstract contents (null
when empty), any successful smaller-fuel run returns the same thing, the
invariant is preserved and the front item is removed. -/
theorem dequeue_step (q : FAAArrayQueue) (xss : List (List Item)) (tid : Int)
    (hrep : QueueRep q xss) (h0 : 0 ≤ tid) (h1 : tid < q.max_threads) :
    ∃ r q' xss', (∀ fuel, faa_queue_dequeue (fuel + 2) q tid = some (r, q')) ∧
      (∀ fuel p, faa_queue_dequeue fuel q tid = some p → p = (r, q')) ∧
      r = headCell xss.flatten ∧ QueueRep q' xss' ∧ xss'.flatten = xss.flatten.tail ∧
      q'.max_threads = q.max_threads := by
  have hinv : ¬ (tid < 0 ∨ q.max_threads ≤ tid) := by omega
  have hxssne : xss ≠ [] := by
    obtain ⟨hpos0, _, hlen, _, _⟩ := hrep
    intro habs
    rw [habs] at hlen
    simp only [List.length_nil] at hlen
    omega
  obtain ⟨ks, rest, rfl⟩ : ∃ ks rest, xss = ks :: rest := by
    cases xss with
    | nil => exact absurd rfl hxssne
    | cons a t => exact ⟨a, t, rfl⟩
  cases ks with
  | cons y ys =>
    obtain ⟨q', hloop, hrep', hmt⟩ := dequeue_step_cons q y ys rest tid hrep h0 h1
    refine ⟨Cell.val y, q', ys :: rest, ?_, ?_, by simp [headCell], hrep', by simp, hmt⟩
    · intro fuel
      rw [faa_queue_dequeue, if_neg hinv]
      exact hloop (fuel + 1)
    · intro fuel p hp
      rw [faa_queue_dequeue, if_neg hinv] at hp
      cases fuel with
      | zero => exact absurd hp (by simp [dequeueLoop])
      | succ f =>
        rw [hloop f] at hp
        exact (Option.some.inj hp).symm
  | nil =>
    rcases rest with _ | ⟨b, t⟩
    · obtain ⟨q', hloop, hrep', hmt⟩ := dequeue_step_empty_single q tid hrep h0 h1
      refine ⟨Cell.empty, q', [[]], ?_, ?_, by simp [headCell], hrep', by simp, hmt⟩
      · intro fuel
        rw [faa_queue_dequeue, if_neg hinv]
        exact hloop (fuel + 1)
      · intro fuel p hp
        rw [faa_queue_dequeue, if_neg hinv] at hp
        cases fuel with
        | zero => exact absurd hp (by simp [dequeueLoop])
        | succ f =>
          rw [hloop f] at hp
          exact (Option.some.inj hp).symm
    · obtain ⟨q3r, y, ys, rest', hrsplit, hrep3, hmt3, heq⟩ :=
        dequeue_step_advance q (b :: t) tid hrep (by simp) h0 h1
      obtain ⟨q', hloop, hrep', hmt'⟩ :=
        dequeue_step_cons q3r y ys rest' tid hrep3 h0 (by rw [hmt3]; exact h1)
      refine ⟨Cell.val y, q', ys :: rest', ?_, ?_, ?_, hrep', ?_, by rw [hmt', hmt3]⟩
      · intro fuel
        rw [faa_queue_dequeue, if_neg hinv]
        rw [heq (fuel + 1)]
        exact hloop fuel
      · intro fuel p hp
        rw [faa_queue_dequeue, if_neg hinv] at hp
        cases fuel with
        | zero => exact absurd hp (by simp [dequeueLoop])
        | succ f =>
          rw [heq f] at hp
          cases f with
          | zero => exact absurd hp (by simp [dequeueLoop])
          | succ g =>
            rw [hloop g] at hp
            exact (Option.some.inj hp).symm
      · rw [hrsplit]
        simp [headCell]
      · rw [hrsplit]
        simp

theorem drain_succ (l : List Item) (k : Nat) :
    drain l (k + 1) = headCell l :: drain l.tail k := by
  cases l <;> rfl

/-- Running a whole list of enqueues from an invariant state appends the list
to the abstract contents. -/
theorem enqueueAll_run (tid : Int) (fuel : Nat) :
    ∀ (xs : List Item) (q : FAAArrayQueue) (xss : List (List Item)),
      QueueRep q xss → 0 ≤ tid → tid < q.max_threads →
      ∃ q' xss', enqueueAll (fuel + 1) q xs tid = some q' ∧ QueueRep q' xss' ∧
        xss'.flatten = xss.flatten ++ xs ∧ q'.max_threads = q.max_threads := by
  intro xs
  induction xs with
  | nil =>
    intro q xss hrep _ _
    exact ⟨q, xss, rfl, hrep, by simp, rfl⟩
  | cons x rest ih =>
    intro q xss hrep h0 h1
    obtain ⟨q1, xss1, hcomp, _, hrep1, hflat1, hmt1⟩ := enqueue_step q xss x tid hrep h0 h1
    obtain ⟨q', xss', hrun, hrep', hflat', hmt'⟩ := ih q1 xss1 hrep1 h0 (by rw [hmt1]; exact h1)
    refine ⟨q', xss', ?_, hrep', ?_, by rw [hmt', hmt1]⟩
    · simp only [enqueueAll, hcomp fuel]
      exact hrun
    · rw [hflat', hflat1]
      simp

/-- Running `k` dequeues from an invariant state returns the first `k`
entries of the abstract contents padded with nulls. -/
theorem dequeueN_run (tid : Int) (fuel : Nat) :
    ∀ (k : Nat) (q : FAAArrayQueue) (xss : List (List Item)),
      QueueRep q xss → 0 ≤ tid → tid < q.max_threads →
      ∃ q' xss', dequeueN (fuel + 2) q k tid = some (drain xss.flatten k, q') ∧
        QueueRep q' xss' ∧ xss'.flatten = xss.flatten.drop k ∧
        q'.max_threads = q.max_threads := by
  intro k
  induction k with
  | zero =>
    intro q xss hrep _ _
    exact ⟨q, xss, rfl, hrep, by simp, rfl⟩
  | succ k ih =>
    intro q xss hrep h0 h1
    obtain ⟨r, q1, xss1, hcomp, _, hr, hrep1, hflat1, hmt1⟩ := dequeue_step q xss tid hrep h0 h1
    obtain ⟨q', xss', hrun, hrep', hflat', hmt'⟩ := ih q1 xss1 hrep1 h0 (by rw [hmt1]; exact h1)
    refine ⟨q', xss', ?_, hrep', ?_, by rw [hmt', hmt1]⟩
    · simp only [dequeueN, hcomp fuel]
      rw [hrun]
      rw [drain_succ, hr, hflat1]
    · rw [hflat', hflat1]
      simp

/-- C1.  A single thread with a valid tid that creates a queue, enqueues
`xs` in order (any length, in particular longer than `FAA_BUFFER_SIZE`, which
exercises node advancement) and then dequeues `xs.length + 1 + extra` times
receives exactly `xs` in order, then null, and every further dequeue also
returns null.  Any loop fuel of at least 2 suffices (no sequential iteration
of either loop needs more). -/
theorem faaq_C1_single_thread_fifo (alloc : Nat → Bool) (mt tid : Int) (xs : List Item)
    (q0 : FAAArrayQueue) (fuel extra : Nat)
    (htid0 : 0 ≤ tid) (htid1 : tid < mt)
    (hcreate : faa_queue_create alloc mt = .ok q0) (hfuel : 2 ≤ fuel) :
    ∃ q1 q2, enqueueAll fuel q0 xs tid = some q1 ∧
      dequeueN fuel q1 (xs.length + 1 + extra) tid
        = some (xs.map Cell.val ++ List.replicate (1 + extra) Cell.empty, q2) := by
  obtain ⟨f, rfl⟩ : ∃ f, fuel = f + 2 := ⟨fuel - 2, by omega⟩
  have hrep0 : QueueRep q0 [[]] := queueRep_initial alloc mt q0 hcreate
  have hmt0 : q0.max_threads = mt := by
    rw [faa_queue_create_ok alloc mt q0 hcreate]
  obtain ⟨q1, xss1, hrun1, hrep1, hflat1, hmt1⟩ :=
    enqueueAll_run tid (f + 1) xs q0 [[]] hrep0 htid0 (by rw [hmt0]; exact htid1)
  have hflat1' : xss1.flatten = xs := by simpa using hflat1
  obtain ⟨q2, xss2, hrun2, _, _, _⟩ :=
    dequeueN_run tid f (xs.length + 1 + extra) q1 xss1 hrep1 htid0
      (by rw [hmt1, hmt0]; exact htid1)
  refine ⟨q1, q2, hrun1, ?_⟩
  rw [hrun2, hflat1']
  have harith : xs.length + 1 + extra = xs.length + (1 + extra) := by omega
  rw [harith, drain_full]

/-- Witness for `faaq_C1_single_thread_fifo` at a concrete input. -/
theorem faaq_C1_witness :
    ∃ q1 q2, enqueueAll 2
        { nodes := [create_node none], tailPos := 0, max_threads := 1,
          holders := fun _ => none } [5, 7] 0 = some q1 ∧
      dequeueN 2 q1 ([5, 7].length + 1 + 1) 0
        = some ([5, 7].map Cell.val ++ List.replicate (1 + 1) Cell.empty, q2) :=
  faaq_C1_single_thread_fifo (fun _ => true) 1 0 [5, 7]
    { nodes := [create_node none], tailPos := 0, max_threads := 1, holders := fun _ => none }
    2 1 (by decide) (by decide) rfl (by decide)

/-- Every reachable state satisfies the invariant, and its abstract contents
only hold previously enqueued items. -/
theorem reach_rep (xs : List Item) (q : FAAArrayQueue) (h : Reach xs q) :
    ∃ xss, QueueRep q xss ∧ ∀ v ∈ xss.flatten, v ∈ xs := by
  induction h with
  | create alloc mt q hc => exact ⟨[[]], queueRep_initial alloc mt q hc, by simp⟩
  | enq xs q x tid fuel q' hre h0 h1 heq ih =>
    obtain ⟨xss, hrep, hsub⟩ := ih
    obtain ⟨q'', xss', _, huniq, hrep', hflat', _⟩ := enqueue_step q xss x tid hrep h0 h1
    cases huniq fuel q' heq
    refine ⟨xss', hrep', ?_⟩
    intro v hv
    rw [hflat'] at hv
    rcases List.mem_append.1 hv with hvv | hvv
    · exact List.mem_append.2 (Or.inl (hsub v hvv))
    · exact List.mem_append.2 (Or.inr hvv)
  | deq xs q tid fuel r q' hre h0 h1 heq ih =>
    obtain ⟨xss, hrep, hsub⟩ := ih
    obtain ⟨r', q'', xss', _, huniq, _, hrep', hflat', _⟩ := dequeue_step q xss tid hrep h0 h1
    have hp := huniq fuel (r, q') heq
    have hq : q' = q'' := congrArg Prod.snd hp
    subst hq
    refine ⟨xss', hrep', fun v hv => ?_⟩
    rw [hflat'] at hv
    exact hsub v (List.mem_of_mem_tail hv)

/-- C4.  In every reachable state used within its preconditions, a
successful dequeue never returns the taken sentinel: it returns null or an
item that was previously passed to `faa_queue_enqueue` on this queue. -/
theorem faaq_C4_dequeue_no_sentinel (xs : List Item) (q : FAAArrayQueue) (tid : Int)
    (fuel : Nat) (r : Cell) (q' : FAAArrayQueue)
    (hreach : Reach xs q) (h0 : 0 ≤ tid) (h1 : tid < q.max_threads)
    (hdq : faa_queue_dequeue fuel q tid = some (r, q')) :
    r ≠ Cell.taken ∧ ∀ v, r = Cell.val v → v ∈ xs := by
  obtain ⟨xss, hrep, hsub⟩ := reach_rep xs q hreach
  obtain ⟨r', q'', xss', _, huniq, hr', _, _, _⟩ := dequeue_step q xss tid hrep h0 h1
  have hp := huniq fuel (r, q') hdq
  have hrr : r = r' := congrArg Prod.fst hp
  rw [hrr, hr']
  cases hflat : xss.flatten with
  | nil =>
    refine ⟨fun habs => Cell.noConfusion habs, fun v habs => Cell.noConfusion habs⟩
  | cons a l =>
    refine ⟨fun habs => Cell.noConfusion habs, fun v habs => ?_⟩
    have hva : v = a := by
      have := Cell.val.inj habs
      exact this.symm
    subst hva
    exact hsub v (by rw [hflat]; simp)

/-- Witness for `faaq_C4_dequeue_no_sentinel` at a concrete input. -/
theorem faaq_C4_witness :
    Cell.empty ≠ Cell.taken ∧ ∀ v, Cell.empty = Cell.val v → v ∈ ([] : List Item) :=
  faaq_C4_dequeue_no_sentinel [] sampleQueue 0 2 Cell.empty
    (queueHazptrReset (queueProtect sampleQueue 0 0) 0)
    (Reach.create (fun _ => true) 1 sampleQueue rfl) (by decide) (by decide) rfl

/-- C10.  With assertions disabled, an out-of-range tid makes
`faa_queue_enqueue` return without any effect and `faa_queue_dequeue` return
null without any effect: the entire queue state — chain, indices, slots and
every holder protection slot — is returned unchanged, and no index is
claimed by a fetch-and-add (the validation exits before the loop body). -/
theorem faaq_C10_invalid_tid_noop (fuel : Nat) (q : FAAArrayQueue) (item : Item) (tid : Int)
    (hbad : tid < 0 ∨ q.max_threads ≤ tid) :
    faa_queue_enqueue fuel q item tid = some q ∧
    faa_queue_dequeue fuel q tid = some (Cell.empty, q) := by
  constructor
  · rw [faa_queue_enqueue, if_pos hbad]
  · rw [faa_queue_dequeue, if_pos hbad]

/-- Witness for `faaq_C10_invalid_tid_noop` at a concrete input. -/
theorem faaq_C10_witness :
    faa_queue_enqueue 3 sampleQueue 5 (-1) = some sampleQueue ∧
    faa_queue_dequeue 3 sampleQueue (-1) = some (Cell.empty, sampleQueue) :=
  faaq_C10_invalid_tid_noop 3 sampleQueue 5 (-1) (Or.inl (by decide))

/-- C5.  `faa_queue_create` returns null only for non-positive `max_threads`
or a failed allocation; with positive `max_threads` and all allocations
succeeding it returns a queue whose head and tail are one empty sentinel
node; and it aborts (the `create_node` / `domain_acquire_hprec` path) only
under a failed allocation — so allocation failure produces only a null
return or a fatal abort. -/
theorem faaq_C5_create_contract :
    (∀ (alloc : Nat → Bool) (mt : Int), faa_queue_create alloc mt = .fail →
      mt ≤ 0 ∨ ∃ i, alloc i = false) ∧
    (∀ (alloc : Nat → Bool) (mt : Int), 0 < mt → (∀ i, alloc i = true) →
      faa_queue_create alloc mt = .ok (initialQueue mt)) ∧
    (∀ (alloc : Nat → Bool) (mt : Int), faa_queue_create alloc mt = .fatal →
      ∃ i, alloc i = false) := by
  refine ⟨?_, ?_, ?_⟩
  · intro alloc mt h
    unfold faa_queue_create at h
    split at h
    · left; assumption
    · split at h
      · exact Or.inr ⟨0, by assumption⟩
      · split at h
        · exact Or.inr ⟨1, by assumption⟩
        · split at h
          · exact absurd h (by simp)
          · split at h
            · exact Or.inr ⟨3, by assumption⟩
            · split at h
              · exact absurd h (by simp)
              · exact absurd h (by simp)
  · intro alloc mt hpos hall
    have hallrange : ((List.range mt.toNat).all fun i => alloc (4 + i)) = true :=
      List.all_eq_true.mpr fun i _ => hall (4 + i)
    unfold faa_queue_create
    rw [if_neg (by omega)]
    rw [if_neg (by simp [hall 0])]
    rw [if_neg (by simp [hall 1])]
    rw [if_neg (by simp [hall 2])]
    rw [if_neg (by simp [hall 3])]
    rw [if_neg (by simp [hallrange])]
    rfl
  · intro alloc mt h
    unfold faa_queue_create at h
    split at h
    · exact absurd h (by simp)
    · split at h
      · exact absurd h (by simp)
      · split at h
        · exact absurd h (by simp)
        · split at h
          · exact ⟨2, by assumption⟩
          · split at h
            · exact absurd h (by simp)
            · split at h
              · rename_i hallfalse
                by_contra hno
                push_neg at hno
                have hailtrue : ∀ i, alloc i = true := by
                  intro i
                  cases h2 : alloc i with
                  | false => exact absurd h2 (hno i)
                  | true => rfl
                have : ((List.range mt.toNat).all fun i => alloc (4 + i)) = true :=
                  List.all_eq_true.mpr fun i _ => hailtrue (4 + i)
                rw [this] at hallfalse
                exact Bool.noConfusion hallfalse
              · exact absurd h (by simp)

/-- Witness for `faaq_C5_create_contract` at a concrete input. -/
theorem faaq_C5_witness :
    faa_queue_create (fun _ => true) 1 = .ok (initialQueue 1) :=
  faaq_C5_create_contract.2.1 (fun _ => true) 1 (by decide) (fun _ => rfl)

theorem protectLoop_sound (loads : Nat → Option Nat) :
    ∀ fuel i p h r h' k, protectLoop fuel loads i p h = some (r, h', k) →
      r = loads k ∧ h'.ptr = r := by
  intro fuel
  induction fuel with
  | zero =>
    intro i p h r h' k hx
    exact absurd hx (by simp [protectLoop])
  | succ f ih =>
    intro i p h r h' k hx
    simp only [protectLoop] at hx
    by_cases hpv : p = loads i
    · rw [if_pos hpv] at hx
      have h1 : (p, hazptr_reset h p, i) = (r, h', k) := Option.some.inj hx
      have hr : r = p := (congrArg Prod.fst h1).symm
      have hh : h' = hazptr_reset h p := (congrArg (fun z => z.2.1) h1).symm
      have hk : k = i := (congrArg (fun z => z.2.2) h1).symm
      subst hr; subst hh; subst hk
      exact ⟨hpv, rfl⟩
    · rw [if_neg hpv] at hx
      exact ih (i + 1) (loads i) (hazptr_reset h p) r h' k hx

/-- C3.  When `HAZPTR_PROTECT` terminates, its result equals the value of
the final validating load and the holder's record slot holds exactly that
result; in a sequential setting where the source is never concurrently
modified, one iteration suffices and the macro returns the current value of
the source (possibly null) with that value protected. -/
theorem faaq_C3_protect_contract :
    (∀ fuel loads (h : HazptrHolder) r h' k,
        HAZPTR_PROTECT fuel loads h = some (r, h', k) →
        r = loads k ∧ h'.ptr = r) ∧
    (∀ (c : Option Nat) loads (h : HazptrHolder), (∀ i, loads i = c) →
        ∀ fuel, 1 ≤ fuel → HAZPTR_PROTECT fuel loads h = some (c, { ptr := c }, 1)) := by
  constructor
  · intro fuel loads h r h' k hx
    exact protectLoop_sound loads fuel 1 (loads 0) h r h' k hx
  · intro c loads h hconst fuel hf
    obtain ⟨f, rfl⟩ : ∃ f, fuel = f + 1 := ⟨fuel - 1, by omega⟩
    unfold HAZPTR_PROTECT
    simp only [protectLoop]
    rw [if_pos (by rw [hconst 0, hconst 1])]
    rw [hconst 0]
    rfl

/-- Witness for `faaq_C3_protect_contract` at a concrete input. -/
theorem faaq_C3_witness :
    (some 5 = (fun _ => some 5 : Nat → Option Nat) 1 ∧
      (HazptrHolder.mk (some 5)).ptr = some 5) ∧
    HAZPTR_PROTECT 1 (fun _ => some 5) { ptr := none } = some (some 5, { ptr := some 5 }, 1) :=
  ⟨faaq_C3_protect_contract.1 1 (fun _ => some 5) { ptr := none } (some 5) { ptr := some 5 } 1 rfl,
   faaq_C3_protect_contract.2 (some 5) (fun _ => some 5) { ptr := none } (fun _ => rfl) 1
     (by decide)⟩

/-- C9.  `hazptr_retire` with a null object descriptor is a no-op for every
reclaim-function argument: the domain is returned unchanged — no shard push,
no `retired_count` change, no threshold check, no reclamation — and no
callback is invoked. -/
theorem faaq_C9_retire_null_noop (fuel : Nat) (d : HazptrDomain) (reclaim_fn : Option Nat) :
    hazptr_retire fuel d none reclaim_fn = some (d, []) := rfl

/-- C6.  When `domain_do_reclamation` finds the `reclaiming` flag already
set, it only adds the claimed count back to `retired_count`: no callback is
invoked, the shards, the scan set and the hazard-pointer records are
untouched, and the flag stays set. -/
theorem faaq_C6_reclamation_already_running (fuel : Nat) (d : HazptrDomain)
    (claimed_count : Int) (h : d.reclaiming = true) :
    ∃ d', domain_do_reclamation fuel d claimed_count = some (d', []) ∧
      d'.retired_count = d.retired_count + claimed_count ∧
      d'.retired_shards = d.retired_shards ∧
      d'.scan_set = d.scan_set ∧
      d'.reclaiming = true ∧
      d'.hprec_ptrs = d.hprec_ptrs ∧
      d'.hprec_count = d.hprec_count := by
  rw [domain_do_reclamation, if_pos h]
  by_cases hc : claimed_count = 0
  · subst hc
    rw [if_neg (by simp)]
    exact ⟨d, rfl, by omega, rfl, rfl, h, rfl, rfl⟩
  · rw [if_pos hc]
    exact ⟨{ d with retired_count := d.retired_count + claimed_count },
      rfl, rfl, rfl, rfl, h, rfl, rfl⟩

/-- Witness for `faaq_C6_reclamation_already_running` at a concrete input. -/
theorem faaq_C6_witness :
    ∃ d', domain_do_reclamation 1 busyDomain 5 = some (d', []) ∧
      d'.retired_count = busyDomain.retired_count + 5 ∧
      d'.retired_shards = busyDomain.retired_shards ∧
      d'.scan_set = busyDomain.scan_set ∧
      d'.reclaiming = true ∧
      d'.hprec_ptrs = busyDomain.hprec_ptrs ∧
      d'.hprec_count = busyDomain.hprec_count :=
  faaq_C6_reclamation_already_running 1 busyDomain 5 rfl

/-- `calculate_threshold` without overflow: when the `size_t` product
`hprec_count * HP_HCOUNT_MULTIPLIER` fits in `int64_t`, the result is the
exact maximum of the base threshold and the product. -/
theorem calculate_threshold_eq_max (d : HazptrDomain)
    (hof : d.hprec_count * HP_HCOUNT_MULTIPLIER < 2 ^ 63) :
    calculate_threshold d
      = max HP_RCOUNT_THRESHOLD ((d.hprec_count : Int) * (HP_HCOUNT_MULTIPLIER : Int)) := by
  have h64 : d.hprec_count * HP_HCOUNT_MULTIPLIER < 2 ^ 64 := by
    have : (2 : Nat) ^ 63 < 2 ^ 64 := by norm_num
    omega
  have hmod : d.hprec_count * HP_HCOUNT_MULTIPLIER % 2 ^ 64
      = d.hprec_count * HP_HCOUNT_MULTIPLIER := Nat.mod_eq_of_lt h64
  have hcast : ((d.hprec_count * HP_HCOUNT_MULTIPLIER : Nat) : Int)
      = (d.hprec_count : Int) * (HP_HCOUNT_MULTIPLIER : Int) := by push_cast; ring
  simp only [calculate_threshold, int64_of_uint64, hmod]
  rw [if_pos hof, hcast]
  split <;> omega

/-- C7 counterexample: at `hprec_count = 2 ^ 63` the code computes threshold
1000 while `max(1000, 2 × hprec_count) = 2 ^ 64`, so the claimed equation
(and with it global monotonicity) fails. -/
theorem faaq_C7_counterexample :
    calculate_threshold overflowDomain = HP_RCOUNT_THRESHOLD ∧
    max HP_RCOUNT_THRESHOLD
        ((overflowDomain.hprec_count : Int) * (HP_HCOUNT_MULTIPLIER : Int))
      ≠ HP_RCOUNT_THRESHOLD := by
  constructor
  · decide
  · decide

/-- C7 (amended).  Provided the product `hprec_count * HP_HCOUNT_MULTIPLIER`
does not overflow `int64_t` (true for every physically realizable record
count), `calculate_threshold` equals
`max(HP_RCOUNT_THRESHOLD, hprec_count * HP_HCOUNT_MULTIPLIER)`, hence is at
least the base threshold 1000 and is monotone in the record count. -/
theorem faaq_C7_threshold_max :
    (∀ d : HazptrDomain, d.hprec_count * HP_HCOUNT_MULTIPLIER < 2 ^ 63 →
      calculate_threshold d
        = max HP_RCOUNT_THRESHOLD ((d.hprec_count : Int) * (HP_HCOUNT_MULTIPLIER : Int)) ∧
      HP_RCOUNT_THRESHOLD ≤ calculate_threshold d) ∧
    (∀ d d' : HazptrDomain, d.hprec_count ≤ d'.hprec_count →
      d'.hprec_count * HP_HCOUNT_MULTIPLIER < 2 ^ 63 →
      calculate_threshold d ≤ calculate_threshold d') := by
  constructor
  · intro d hof
    have h := calculate_threshold_eq_max d hof
    refine ⟨h, ?_⟩
    rw [h]
    exact le_max_left _ _
  · intro d d' hle hof'
    have hof : d.hprec_count * HP_HCOUNT_MULTIPLIER < 2 ^ 63 := by
      have : d.hprec_count * HP_HCOUNT_MULTIPLIER ≤ d'.hprec_count * HP_HCOUNT_MULTIPLIER :=
        Nat.mul_le_mul_right _ hle
      omega
    rw [calculate_threshold_eq_max d hof, calculate_threshold_eq_max d' hof']
    simp only [HP_HCOUNT_MULTIPLIER, HP_RCOUNT_THRESHOLD]
    omega

/-- Witness for `faaq_C7_threshold_max` at concrete inputs. -/
theorem faaq_C7_witness :
    (calculate_threshold default_domain
        = max HP_RCOUNT_THRESHOLD
            ((default_domain.hprec_count : Int) * (HP_HCOUNT_MULTIPLIER : Int)) ∧
      HP_RCOUNT_THRESHOLD ≤ calculate_threshold default_domain) ∧
    calculate_threshold default_domain
      ≤ calculate_threshold { default_domain with hprec_count := 600 } :=
  ⟨faaq_C7_threshold_max.1 default_domain (by decide),
   faaq_C7_threshold_max.2 default_domain { default_domain with hprec_count := 600 }
     (by decide) (by decide)⟩

/-- `calc_shard` always lands inside the shard array. -/
theorem calc_shard_lt (addr : Nat) : calc_shard addr < HP_NUM_SHARDS := by
  have h : calc_shard addr ≤ HP_NUM_SHARDS - 1 := Nat.and_le_right
  have : 0 < HP_NUM_SHARDS := by decide
  omega

/-- C8.  The bit-mask shard computation agrees with the specified
`(addr >> 4) mod S` for every address (`S = HP_NUM_SHARDS` is a power of
two), and below the reclamation threshold `hazptr_retire` on a non-null
descriptor is exactly the push of that descriptor onto shard
`calc_shard addr` plus the count increment. -/
theorem faaq_C8_shard_mod :
    (∀ addr : Nat, calc_shard addr = (addr >>> 4) % HP_NUM_SHARDS) ∧
    (∀ addr : Nat, calc_shard addr < HP_NUM_SHARDS) ∧
    (∀ (fuel : Nat) (d : HazptrDomain) (addr : Nat) (fn : Option Nat),
      d.retired_count + 1 < calculate_threshold d →
      hazptr_retire fuel d (some addr) fn = some (retirePush d addr fn, [])) ∧
    (∀ (d : HazptrDomain) (addr : Nat) (fn : Option Nat),
      d.retired_shards.length = HP_NUM_SHARDS →
      (retirePush d addr fn).retired_shards.getD (calc_shard addr) []
        = { addr := addr, reclaim := fn } :: d.retired_shards.getD (calc_shard addr) []) := by
  refine ⟨?_, calc_shard_lt, ?_, ?_⟩
  · intro addr
    have h := Nat.and_pow_two_sub_one_eq_mod (addr >>> 4) 3
    simpa [calc_shard, HP_NUM_SHARDS] using h
  · intro fuel d addr fn hlt
    have hX : ¬ d.retired_count + 1 ≥ calculate_threshold d := by omega
    simp only [hazptr_retire, domain_check_threshold]
    rw [if_neg (show ¬ (retirePush d addr fn).retired_count
        ≥ calculate_threshold (retirePush d addr fn) from hX)]
    norm_num
  · intro d addr fn hlen
    have hsh : calc_shard addr < d.retired_shards.length := by
      rw [hlen]; exact calc_shard_lt addr
    simp only [retirePush]
    rw [List.getD_eq_getElem?_getD, List.getElem?_set_self (by simpa using hsh)]
    rfl

/-- Witness for `faaq_C8_shard_mod` at a concrete input. -/
theorem faaq_C8_witness :
    hazptr_retire 1 default_domain (some 35) (some 1)
      = some (retirePush default_domain 35 (some 1), []) ∧
    (retirePush default_domain 35 (some 1)).retired_shards.getD (calc_shard 35) []
      = { addr := 35, reclaim := some 1 }
          :: default_domain.retired_shards.getD (calc_shard 35) [] :=
  ⟨faaq_C8_shard_mod.2.2.1 1 default_domain 35 (some 1) (by decide),
   faaq_C8_shard_mod.2.2.2 default_domain 35 (some 1) (by decide)⟩

theorem collect_protected_all_none (ptrs : List (Option Nat))
    (h : ∀ p ∈ ptrs, p = none) : collect_protected ptrs = [] := by
  have hgen : ∀ acc, (ptrs.foldl
      (fun acc p => match p with | some a => ptr_set_put acc a | none => acc) acc) = acc := by
    induction ptrs with
    | nil => intro acc; rfl
    | cons p rest ih =>
      intro acc
      have hp : p = none := h p (by simp)
      subst hp
      simpa using ih (fun x hx => h x (by simp [hx])) acc
  exact hgen []

theorem scan_retired_no_protection (l : List HazptrObj)
    (hfns : ∀ o ∈ l, o.reclaim.isSome = true) :
    scan_retired [] l = ([], l, l.length) := by
  induction l with
  | nil => rfl
  | cons o rest ih =>
    have hrest := ih (fun x hx => hfns x (by simp [hx]))
    simp only [scan_retired, hrest, List.not_mem_nil, if_false]
    rw [if_pos (hfns o (by simp))]
    simp

theorem threshold_ge_base (d : HazptrDomain) :
    HP_RCOUNT_THRESHOLD ≤ calculate_threshold d := by
  simp only [calculate_threshold]
  split <;> omega

theorem shardsAllEmpty_replicate (d : HazptrDomain)
    (h : d.retired_shards = List.replicate HP_NUM_SHARDS []) :
    shardsAllEmpty d = true := by
  rw [shardsAllEmpty, h]
  apply List.all_eq_true.mpr
  intro l hl
  rw [List.eq_of_mem_replicate hl]
  rfl

theorem totalRetired_replicate (d : HazptrDomain)
    (h : d.retired_shards = List.replicate HP_NUM_SHARDS []) :
    totalRetired d = [] := by
  rw [totalRetired, h]
  decide

theorem flatten_eq_nil_of_all_empty (l : List (List HazptrObj))
    (h : l.any (fun x => !x.isEmpty) = false) : l.flatten = [] := by
  induction l with
  | nil => rfl
  | cons a rest ih =>
    simp only [List.any_cons, Bool.or_eq_false_iff, Bool.not_eq_false'] at h
    obtain ⟨ha, hrest⟩ := h
    have ha' : a = [] := List.isEmpty_iff.mp ha
    subst ha'
    simpa using ih hrest

theorem domain_check_threshold_zero (d : HazptrDomain) (h : d.retired_count = 0) :
    domain_check_threshold d = (0, d) := by
  rw [domain_check_threshold, if_neg]
  have hge := threshold_ge_base d
  simp only [HP_RCOUNT_THRESHOLD] at hge
  omega

/-- One pass of the reclamation loop from a quiescent state with the whole
retired population claimed: everything is reclaimed in shard order and the
loop exits. -/
theorem reclaimLoop_quiescent (fuel : Nat) (d : HazptrDomain) (acc : List HazptrObj)
    (hprot : ∀ p ∈ d.hprec_ptrs, p = none)
    (hfns : ∀ o ∈ totalRetired d, o.reclaim.isSome = true)
    (hcnt : d.retired_count = 0) :
    ∃ d', reclaimLoop (fuel + 1) d (((totalRetired d).length : Int)) acc
        = some (d', acc ++ totalRetired d) ∧
      d'.retired_shards = List.replicate HP_NUM_SHARDS [] ∧
      d'.retired_count = 0 ∧ d'.reclaiming = d.reclaiming ∧
      d'.hprec_ptrs = d.hprec_ptrs ∧ d'.hprec_count = d.hprec_count := by
  simp only [totalRetired] at hfns ⊢
  by_cases hany : d.retired_shards.any (fun l => !l.isEmpty) = true
  · set DF : HazptrDomain :=
      { hprec_ptrs := d.hprec_ptrs, hprec_count := d.hprec_count, scan_set := some [],
        retired_count := d.retired_count, reclaiming := d.reclaiming,
        retired_shards := List.replicate HP_NUM_SHARDS [] } with hDF
    refine ⟨DF, ?_, rfl, hcnt, rfl, rfl, rfl⟩
    simp only [reclaimLoop]
    rw [if_pos hany]
    rw [collect_protected_all_none d.hprec_ptrs hprot]
    rw [scan_retired_no_protection d.retired_shards.flatten hfns]
    simp only [List.isEmpty_nil, if_true, sub_self, ne_eq, not_true_eq_false, if_false,
      ite_self]
    rw [← hDF]
    rw [domain_check_threshold_zero DF hcnt]
    rw [if_pos ⟨rfl, shardsAllEmpty_replicate DF rfl⟩]
  · have hanyf : d.retired_shards.any (fun l => !l.isEmpty) = false := by
      cases hx : d.retired_shards.any (fun l => !l.isEmpty) with
      | false => rfl
      | true => exact absurd hx hany
    have hflat : d.retired_shards.flatten = [] :=
      flatten_eq_nil_of_all_empty d.retired_shards hanyf
    set DF : HazptrDomain :=
      { hprec_ptrs := d.hprec_ptrs, hprec_count := d.hprec_count, scan_set := d.scan_set,
        retired_count := d.retired_count, reclaiming := d.reclaiming,
        retired_shards := List.replicate HP_NUM_SHARDS [] } with hDF
    refine ⟨DF, ?_, rfl, hcnt, rfl, rfl, rfl⟩
    simp only [reclaimLoop]
    rw [if_neg (by rw [hanyf]; exact Bool.noConfusion)]
    rw [hflat]
    simp only [List.length_nil, Nat.cast_zero, List.append_nil]
    rw [if_neg (show ¬ ((0 : Int) ≠ 0) from fun h => h rfl)]
    rw [← hDF]
    rw [domain_check_threshold_zero DF hcnt]
    rw [if_pos ⟨rfl, shardsAllEmpty_replicate DF rfl⟩]

/-- `domain_do_reclamation` from a quiescent domain with the whole retired
population claimed reclaims everything, in shard order, and releases the
flag. -/
theorem do_reclamation_quiescent (fuel : Nat) (d : HazptrDomain)
    (hrecl : d.reclaiming = false)
    (hprot : ∀ p ∈ d.hprec_ptrs, p = none)
    (hfns : ∀ o ∈ totalRetired d, o.reclaim.isSome = true)
    (hcnt : d.retired_count = 0) :
    ∃ d', domain_do_reclamation (fuel + 1) d ((totalRetired d).length : Int)
        = some (d', totalRetired d) ∧
      d'.retired_shards = List.replicate HP_NUM_SHARDS [] ∧
      d'.retired_count = 0 ∧ d'.reclaiming = false ∧
      d'.hprec_ptrs = d.hprec_ptrs ∧ d'.hprec_count = d.hprec_count := by
  rw [domain_do_reclamation]
  rw [if_neg (show ¬ (d.reclaiming = true) from by rw [hrecl]; exact Bool.noConfusion)]
  set D2 := scanSetInit { d with reclaiming := true } with hD2
  have hp2 : D2.hprec_ptrs = d.hprec_ptrs := by rw [hD2, scanSetInit]; split <;> rfl
  have hsh2 : D2.retired_shards = d.retired_shards := by rw [hD2, scanSetInit]; split <;> rfl
  have hc2 : D2.retired_count = d.retired_count := by rw [hD2, scanSetInit]; split <;> rfl
  have hhc2 : D2.hprec_count = d.hprec_count := by rw [hD2, scanSetInit]; split <;> rfl
  have htot2 : totalRetired D2 = totalRetired d := by
    rw [totalRetired, totalRetired, hsh2]
  obtain ⟨d3, hloop, hsh, hc0, _, hp3, hhc3⟩ :=
    reclaimLoop_quiescent fuel D2 [] (by rw [hp2]; exact hprot)
      (by rw [htot2]; exact hfns) (by rw [hc2]; exact hcnt)
  have hclaim : ((totalRetired d).length : Int) = ((totalRetired D2).length : Int) := by
    rw [htot2]
  dsimp only []
  rw [hclaim, hloop]
  simp only [List.nil_append]
  rw [htot2]
  exact ⟨{ d3 with reclaiming := false }, rfl, hsh, hc0, rfl,
    by rw [show ({ d3 with reclaiming := false } : HazptrDomain).hprec_ptrs = d3.hprec_ptrs
      from rfl, hp3, hp2],
    by rw [show ({ d3 with reclaiming := false } : HazptrDomain).hprec_count = d3.hprec_count
      from rfl, hhc3, hhc2]⟩

/-- Pushing onto one shard is, up to permutation, consing onto the flattened
population. -/
theorem flatten_set_cons {α : Type} (l : List (List α)) (i : Nat) (x : α)
    (h : i < l.length) :
    ((l.set i (x :: l.getD i [])).flatten).Perm (x :: l.flatten) := by
  induction l generalizing i with
  | nil => simp at h
  | cons a rest ih =>
    cases i with
    | zero =>
      simp only [List.getD_cons_zero, List.set_cons_zero, List.flatten_cons, List.cons_append]
      exact List.Perm.refl _
    | succ j =>
      have hj : j < rest.length := by simpa using h
      have hperm := ih j hj
      simp only [List.getD_cons_succ, List.set_cons_succ, List.flatten_cons]
      exact (List.Perm.append_left a hperm).trans List.perm_middle

/-- One `hazptr_retire` call from a quiescent state: either the object is
just pushed (below threshold), or the threshold fires and the whole retired
population — including the new object — is reclaimed.  Either way, the
invocations so far plus the still-retired population permute to the new
object plus the old population. -/
theorem retire_step_quiescent (fuel : Nat) (d : HazptrDomain) (a : Nat) (fn : Option Nat)
    (hinv : QuiescentInv d) (hfn : fn.isSome = true) :
    ∃ d' inv, hazptr_retire (fuel + 1) d (some a) fn = some (d', inv) ∧ QuiescentInv d' ∧
      (inv ++ totalRetired d').Perm ({ addr := a, reclaim := fn } :: totalRetired d) := by
  obtain ⟨hrecl, hprot, hlen, hcnt, hfns⟩ := hinv
  have hshlt : calc_shard a < d.retired_shards.length := by
    rw [hlen]; exact calc_shard_lt a
  have hpermpush : (totalRetired (retirePush d a fn)).Perm
      ({ addr := a, reclaim := fn } :: totalRetired d) :=
    flatten_set_cons d.retired_shards (calc_shard a) _ hshlt
  have hpc : (retirePush d a fn).retired_count = d.retired_count + 1 := rfl
  have hplenlen : (totalRetired (retirePush d a fn)).length = (totalRetired d).length + 1 := by
    rw [hpermpush.length_eq, List.length_cons]
  have hpcnt : (retirePush d a fn).retired_count
      = ((totalRetired (retirePush d a fn)).length : Int) := by
    rw [hpc, hcnt, hplenlen]
    push_cast
    ring
  have hpfns : ∀ o ∈ totalRetired (retirePush d a fn), o.reclaim.isSome = true := by
    intro o ho
    rcases List.mem_cons.mp (hpermpush.mem_iff.mp ho) with h | h
    · rw [h]; exact hfn
    · exact hfns o h
  have hpshlen : (retirePush d a fn).retired_shards.length = HP_NUM_SHARDS := by
    simp only [retirePush, List.length_set]
    exact hlen
  by_cases hth : (retirePush d a fn).retired_count ≥ calculate_threshold (retirePush d a fn)
  · -- threshold reached: everything is reclaimed
    set P0 : HazptrDomain :=
      { hprec_ptrs := d.hprec_ptrs, hprec_count := d.hprec_count, scan_set := d.scan_set,
        retired_count := 0, reclaiming := d.reclaiming,
        retired_shards := (retirePush d a fn).retired_shards } with hP0
    have hP0tot : totalRetired P0 = totalRetired (retirePush d a fn) := rfl
    obtain ⟨d', hrun, hsh', hc', hrecl', hp', _⟩ :=
      do_reclamation_quiescent fuel P0 hrecl hprot (by rw [hP0tot]; exact hpfns) rfl
    refine ⟨d', totalRetired P0, ?_, ?_, ?_⟩
    · simp only [hazptr_retire]
      rw [domain_check_threshold]
      rw [if_pos hth]
      rw [if_pos (show ((retirePush d a fn).retired_count,
          ({ retirePush d a fn with retired_count := 0 } : HazptrDomain)).1 > 0 from by
        show (retirePush d a fn).retired_count > 0
        rw [hpc, hcnt]
        omega)]
      rw [show (((retirePush d a fn).retired_count,
          ({ retirePush d a fn with retired_count := 0 } : HazptrDomain)).1)
        = ((totalRetired P0).length : Int) from by
          show (retirePush d a fn).retired_count = ((totalRetired P0).length : Int)
          rw [hP0tot]; exact hpcnt]
      exact hrun
    · refine ⟨hrecl', ?_, ?_, ?_, ?_⟩
      · rw [hp']; exact hprot
      · rw [hsh']; simp
      · rw [hc', totalRetired_replicate d' hsh']; rfl
      · rw [totalRetired_replicate d' hsh']; intro o ho; simp at ho
    · rw [totalRetired_replicate d' hsh', List.append_nil, hP0tot]
      exact hpermpush
  · -- below threshold: just the push
    refine ⟨retirePush d a fn, [], ?_, ⟨hrecl, hprot, hpshlen, hpcnt, hpfns⟩, ?_⟩
    · simp only [hazptr_retire]
      rw [domain_check_threshold]
      rw [if_neg hth]
      norm_num
    · simpa using hpermpush

/-- `hazptr_cleanup` from a quiescent state: the whole retired population is
claimed and reclaimed. -/
theorem cleanup_quiescent (fuel : Nat) (d : HazptrDomain) (hinv : QuiescentInv d) :
    ∃ d', hazptr_cleanup (fuel + 1) d = some (d', totalRetired d) ∧
      shardsAllEmpty d' = true ∧ d'.retired_count = 0 ∧ QuiescentInv d' := by
  obtain ⟨hrecl, hprot, hlen, hcnt, hfns⟩ := hinv
  set D1 : HazptrDomain :=
    { hprec_ptrs := d.hprec_ptrs, hprec_count := d.hprec_count, scan_set := d.scan_set,
      retired_count := 0, reclaiming := d.reclaiming,
      retired_shards := d.retired_shards } with hD1
  obtain ⟨d', hrun, hsh', hc', hrecl', hp', _⟩ :=
    do_reclamation_quiescent fuel D1 hrecl hprot hfns rfl
  refine ⟨d', ?_, shardsAllEmpty_replicate d' hsh', hc', ?_⟩
  · rw [hazptr_cleanup]
    rw [if_neg (show ¬ (d.retired_count < 0) from by rw [hcnt]; omega)]
    rw [show d.retired_count = ((totalRetired D1).length : Int) from hcnt]
    exact hrun
  · refine ⟨hrecl', ?_, ?_, ?_, ?_⟩
    · rw [hp']; exact hprot
    · rw [hsh']; simp
    · rw [hc', totalRetired_replicate d' hsh']; rfl
    · rw [totalRetired_replicate d' hsh']; intro o ho; simp at ho

/-- Retiring a whole list of objects from a quiescent state: the callbacks
invoked along the way plus the still-retired population permute to the new
objects plus the old population. -/
theorem retireAll_quiescent (fuel : Nat) :
    ∀ (objs : List (Nat × Option Nat)) (d : HazptrDomain), QuiescentInv d →
      (∀ p ∈ objs, (p.2).isSome = true) →
      ∃ d' inv, retireAll (fuel + 1) d objs = some (d', inv) ∧ QuiescentInv d' ∧
        (inv ++ totalRetired d').Perm
          (objs.map (fun p => { addr := p.1, reclaim := p.2 }) ++ totalRetired d) := by
  intro objs
  induction objs with
  | nil =>
    intro d hinv _
    exact ⟨d, [], rfl, hinv, by simp⟩
  | cons p rest ih =>
    obtain ⟨pa, pfn⟩ := p
    intro d hinv hfns
    obtain ⟨d1, inv1, hret, hinv1, hperm1⟩ :=
      retire_step_quiescent fuel d pa pfn hinv (hfns (pa, pfn) (by simp))
    obtain ⟨d2, inv2, hrun, hinv2, hperm2⟩ :=
      ih d1 hinv1 (fun x hx => hfns x (by simp [hx]))
    refine ⟨d2, inv1 ++ inv2, ?_, hinv2, ?_⟩
    · simp only [retireAll, hret, hrun]
    · have h1 : (inv1 ++ inv2) ++ totalRetired d2
          = inv1 ++ (inv2 ++ totalRetired d2) := by rw [List.append_assoc]
      rw [h1]
      have step1 : (inv1 ++ (inv2 ++ totalRetired d2)).Perm
          (inv1 ++ (rest.map (fun p => ({ addr := p.1, reclaim := p.2 } : HazptrObj))
            ++ totalRetired d1)) :=
        List.Perm.append_left inv1 hperm2
      have step2 : (inv1 ++ (rest.map (fun p => ({ addr := p.1, reclaim := p.2 } : HazptrObj))
            ++ totalRetired d1)).Perm
          (rest.map (fun p => ({ addr := p.1, reclaim := p.2 } : HazptrObj))
            ++ (inv1 ++ totalRetired d1)) := by
        rw [← List.append_assoc, ← List.append_assoc]
        exact List.Perm.append_right _ List.perm_append_comm
      have step3 : (rest.map (fun p => ({ addr := p.1, reclaim := p.2 } : HazptrObj))
            ++ (inv1 ++ totalRetired d1)).Perm
          (rest.map (fun p => ({ addr := p.1, reclaim := p.2 } : HazptrObj))
            ++ (({ addr := pa, reclaim := pfn } : HazptrObj) :: totalRetired d)) :=
        List.Perm.append_left _ hperm1
      have step4 : (rest.map (fun p => ({ addr := p.1, reclaim := p.2 } : HazptrObj))
            ++ (({ addr := pa, reclaim := pfn } : HazptrObj) :: totalRetired d)).Perm
          (({ addr := pa, reclaim := pfn } : HazptrObj)
            :: (rest.map (fun p => ({ addr := p.1, reclaim := p.2 } : HazptrObj))
              ++ totalRetired d)) :=
        List.perm_middle
      exact ((step1.trans step2).trans step3).trans step4

/-- A `hazptr_retire` that stays below the reclamation threshold is exactly
the shard push. -/
theorem retire_step_below (fuel : Nat) (d : HazptrDomain) (a : Nat) (fn : Option Nat)
    (hinv : QuiescentInv d) (hfn : fn.isSome = true)
    (hth : ((totalRetired d).length : Int) + 1 < calculate_threshold d) :
    hazptr_retire (fuel + 1) d (some a) fn = some (retirePush d a fn, []) ∧
    QuiescentInv (retirePush d a fn) ∧
    (retirePush d a fn).hprec_count = d.hprec_count ∧
    (totalRetired (retirePush d a fn)).length = (totalRetired d).length + 1 := by
  obtain ⟨hrecl, hprot, hlen, hcnt, hfns⟩ := hinv
  have hshlt : calc_shard a < d.retired_shards.length := by
    rw [hlen]; exact calc_shard_lt a
  have hpermpush : (totalRetired (retirePush d a fn)).Perm
      ({ addr := a, reclaim := fn } :: totalRetired d) :=
    flatten_set_cons d.retired_shards (calc_shard a) _ hshlt
  have hpc : (retirePush d a fn).retired_count = d.retired_count + 1 := rfl
  have hplenlen : (totalRetired (retirePush d a fn)).length = (totalRetired d).length + 1 := by
    rw [hpermpush.length_eq, List.length_cons]
  have hpcnt : (retirePush d a fn).retired_count
      = ((totalRetired (retirePush d a fn)).length : Int) := by
    rw [hpc, hcnt, hplenlen]
    push_cast
    ring
  have hpfns : ∀ o ∈ totalRetired (retirePush d a fn), o.reclaim.isSome = true := by
    intro o ho
    rcases List.mem_cons.mp (hpermpush.mem_iff.mp ho) with h | h
    · rw [h]; exact hfn
    · exact hfns o h
  have hpshlen : (retirePush d a fn).retired_shards.length = HP_NUM_SHARDS := by
    simp only [retirePush, List.length_set]
    exact hlen
  have hth' : ¬ ((retirePush d a fn).retired_count
      ≥ calculate_threshold (retirePush d a fn)) := by
    rw [hpc, hcnt]
    show ¬ (((totalRetired d).length : Int) + 1 ≥ calculate_threshold d)
    omega
  refine ⟨?_, ⟨hrecl, hprot, hpshlen, hpcnt, hpfns⟩, rfl, hplenlen⟩
  simp only [hazptr_retire]
  rw [domain_check_threshold]
  rw [if_neg hth']
  norm_num

/-- A `hazptr_retire` that reaches the reclamation threshold from a
quiescent state reclaims the whole retired population, leaving every shard
empty. -/
theorem retire_step_fire (fuel : Nat) (d : HazptrDomain) (a : Nat) (fn : Option Nat)
    (hinv : QuiescentInv d) (hfn : fn.isSome = true)
    (hth : calculate_threshold d ≤ ((totalRetired d).length : Int) + 1) :
    ∃ d' inv, hazptr_retire (fuel + 1) d (some a) fn = some (d', inv) ∧
      totalRetired d' = [] ∧ QuiescentInv d' ∧ d'.hprec_count = d.hprec_count ∧
      shardsAllEmpty d' = true ∧ d'.retired_count = 0 := by
  obtain ⟨hrecl, hprot, hlen, hcnt, hfns⟩ := hinv
  have hshlt : calc_shard a < d.retired_shards.length := by
    rw [hlen]; exact calc_shard_lt a
  have hpermpush : (totalRetired (retirePush d a fn)).Perm
      ({ addr := a, reclaim := fn } :: totalRetired d) :=
    flatten_set_cons d.retired_shards (calc_shard a) _ hshlt
  have hpc : (retirePush d a fn).retired_count = d.retired_count + 1 := rfl
  have hplenlen : (totalRetired (retirePush d a fn)).length = (totalRetired d).length + 1 := by
    rw [hpermpush.length_eq, List.length_cons]
  have hpfns : ∀ o ∈ totalRetired (retirePush d a fn), o.reclaim.isSome = true := by
    intro o ho
    rcases List.mem_cons.mp (hpermpush.mem_iff.mp ho) with h | h
    · rw [h]; exact hfn
    · exact hfns o h
  have hth' : (retirePush d a fn).retired_count
      ≥ calculate_threshold (retirePush d a fn) := by
    rw [hpc, hcnt]
    show calculate_threshold d ≤ ((totalRetired d).length : Int) + 1
    exact hth
  set P0 : HazptrDomain :=
    { hprec_ptrs := d.hprec_ptrs, hprec_count := d.hprec_count, scan_set := d.scan_set,
      retired_count := 0, reclaiming := d.reclaiming,
      retired_shards := (retirePush d a fn).retired_shards } with hP0
  have hP0tot : totalRetired P0 = totalRetired (retirePush d a fn) := rfl
  obtain ⟨d', hrun, hsh', hc', hrecl', hp', hhc'⟩ :=
    do_reclamation_quiescent fuel P0 hrecl hprot (by rw [hP0tot]; exact hpfns) rfl
  refine ⟨d', totalRetired P0, ?_, totalRetired_replicate d' hsh', ?_, hhc',
    shardsAllEmpty_replicate d' hsh', hc'⟩
  · simp only [hazptr_retire]
    rw [domain_check_threshold]
    rw [if_pos hth']
    rw [if_pos (show ((retirePush d a fn).retired_count,
        ({ retirePush d a fn with retired_count := 0 } : HazptrDomain)).1 > 0 from by
      show (retirePush d a fn).retired_count > 0
      rw [hpc, hcnt]
      omega)]
    rw [show (((retirePush d a fn).retired_count,
        ({ retirePush d a fn with retired_count := 0 } : HazptrDomain)).1)
      = ((totalRetired P0).length : Int) from by
        show (retirePush d a fn).retired_count = ((totalRetired P0).length : Int)
        rw [hP0tot, hpc, hcnt, hplenlen]
        push_cast
        ring]
    exact hrun
  · refine ⟨hrecl', ?_, ?_, ?_, ?_⟩
    · rw [hp']; exact hprot
    · rw [hsh']; simp
    · rw [hc', totalRetired_replicate d' hsh']; rfl
    · rw [totalRetired_replicate d' hsh']; intro o ho; simp at ho

/-- With no allocated records the dynamic threshold is the base 1000. -/
theorem calculate_threshold_zero_records (d : HazptrDomain) (hc : d.hprec_count = 0) :
    calculate_threshold d = HP_RCOUNT_THRESHOLD := by
  rw [calculate_threshold_eq_max d (by rw [hc]; norm_num [HP_HCOUNT_MULTIPLIER])]
  rw [hc]
  norm_num [HP_RCOUNT_THRESHOLD, HP_HCOUNT_MULTIPLIER]

/-- A run of retires that never reaches the base threshold performs no
reclamation at all: every object is just pushed. -/
theorem retireAll_below (fuel : Nat) :
    ∀ (objs : List (Nat × Option Nat)) (d : HazptrDomain), QuiescentInv d →
      d.hprec_count = 0 →
      (totalRetired d).length + objs.length < 1000 →
      (∀ p ∈ objs, (p.2).isSome = true) →
      ∃ d', retireAll (fuel + 1) d objs = some (d', []) ∧ QuiescentInv d' ∧
        d'.hprec_count = 0 ∧
        (totalRetired d').length = (totalRetired d).length + objs.length := by
  intro objs
  induction objs with
  | nil =>
    intro d hinv hc _ _
    exact ⟨d, rfl, hinv, hc, by simp⟩
  | cons p rest ih =>
    obtain ⟨pa, pfn⟩ := p
    intro d hinv hc hb hfns
    have hth : ((totalRetired d).length : Int) + 1 < calculate_threshold d := by
      rw [calculate_threshold_zero_records d hc]
      simp only [HP_RCOUNT_THRESHOLD]
      have : (totalRetired d).length + (rest.length + 1) < 1000 := by simpa using hb
      omega
    obtain ⟨hret, hinv1, hc1, hlen1⟩ :=
      retire_step_below fuel d pa pfn hinv (hfns (pa, pfn) (by simp)) hth
    obtain ⟨d', hrun, hinv', hc', hlen'⟩ :=
      ih (retirePush d pa pfn) hinv1 (by rw [hc1]; exact hc)
        (by rw [hlen1]; simp at hb ⊢; omega)
        (fun x hx => hfns x (by simp [hx]))
    refine ⟨d', ?_, hinv', hc', ?_⟩
    · simp only [retireAll, hret, hrun, List.nil_append]
    · rw [hlen', hlen1]
      simp
      omega

/-- `retireAll` over an append runs the two halves in sequence. -/
theorem retireAll_append (fuel : Nat) :
    ∀ (l1 l2 : List (Nat × Option Nat)) (d : HazptrDomain),
      retireAll fuel d (l1 ++ l2)
        = match retireAll fuel d l1 with
          | none => none
          | some (d1, i1) =>
            match retireAll fuel d1 l2 with
            | none => none
            | some (d2, i2) => some (d2, i1 ++ i2) := by
  intro l1
  induction l1 with
  | nil =>
    intro l2 d
    cases h : retireAll fuel d l2 with
    | none => simp [retireAll, h]
    | some p => cases p with | mk d2 i2 => simp [retireAll, h]
  | cons q rest ih =>
    obtain ⟨qa, qfn⟩ := q
    intro l2 d
    simp only [List.cons_append, retireAll, List.append_eq]
    cases hr : hazptr_retire fuel d (some qa) qfn with
    | none => rfl
    | some p =>
      obtain ⟨d1, i1⟩ := p
      simp only [ih l2 d1]
      cases h1 : retireAll fuel d1 rest with
      | none => rfl
      | some p2 =>
        obtain ⟨d2, i2⟩ := p2
        simp only [List.append_assoc]
        cases h2 : retireAll fuel d2 l2 with
        | none => rfl
        | some p3 =>
          obtain ⟨d3, i3⟩ := p3
          rfl

theorem thousandRetires_split :
    thousandRetires = firstRetires ++ [(16 * 1000, some 0)] := by
  rw [thousandRetires, firstRetires, show (1000 : Nat) = 999 + 1 from rfl, List.range_succ,
    List.map_append]
  rfl

/-- C2 counterexample: after retiring 1000 objects from the initial
quiescent domain, the `hazptr_cleanup` call invokes no reclaim callback at
all — the 1000th `hazptr_retire` already reached the base threshold and
reclaimed every object — so the claim that the cleanup call itself invokes
each retired object's reclaim callback exactly once fails. -/
theorem faaq_C2_counterexample :
    ((retireAll 1 default_domain thousandRetires).bind
        (fun p => (hazptr_cleanup 1 p.1).map (fun r => r.2))) = some [] ∧
    thousandRetires ≠ [] := by
  have hinv0 : QuiescentInv default_domain := ⟨rfl, by decide, rfl, rfl, by decide⟩
  have hfirst : ∀ p ∈ firstRetires, (p.2).isSome = true := by
    intro p hp
    rw [firstRetires] at hp
    obtain ⟨i, _, rfl⟩ := List.mem_map.mp hp
    rfl
  obtain ⟨d1, hrun1, hinv1, hc1, hlen1⟩ :=
    retireAll_below 0 firstRetires default_domain hinv0 rfl
      (by rw [firstRetires]; simp; decide) hfirst
  have hlen1' : (totalRetired d1).length = 999 := by
    rw [hlen1, firstRetires]
    simp
    decide
  obtain ⟨d2, inv2, hrun2, htot2, hinv2, _, _, _⟩ :=
    retire_step_fire 0 d1 (16 * 1000) (some 0) hinv1 rfl
      (by rw [calculate_threshold_zero_records d1 hc1, hlen1']; decide)
  obtain ⟨d3, hclean, _, _, _⟩ := cleanup_quiescent 0 d2 hinv2
  have hretall : retireAll 1 default_domain thousandRetires = some (d2, [] ++ (inv2 ++ [])) := by
    rw [thousandRetires_split, retireAll_append, hrun1]
    simp only [retireAll, hrun2]
  constructor
  · rw [hretall]
    show (hazptr_cleanup 1 d2).map (fun r => r.2) = some []
    have hclean' : hazptr_cleanup 1 d2 = some (d3, totalRetired d2) := hclean
    rw [hclean', htot2]
    rfl
  · rw [thousandRetires]
    simp

/-- C2 (amended).  From a quiescent domain with no retired objects and no
held protections, after retiring any finite list of objects (non-null, with
non-null callbacks), a `hazptr_cleanup` call completes the reclamation:
every retired object's reclaim callback has been invoked exactly once by
the time cleanup returns — possibly already during a threshold-triggered
reclamation inside `hazptr_retire` rather than by cleanup itself — and on
return every retired shard is empty and `retired_count` is 0. -/
theorem faaq_C2_cleanup_reclaims_all (fuel : Nat) (d : HazptrDomain)
    (objs : List (Nat × Option Nat))
    (hinv : QuiescentInv d) (hempty : totalRetired d = [])
    (hfns : ∀ p ∈ objs, (p.2).isSome = true) :
    ∃ d1 inv1 d2 inv2,
      retireAll (fuel + 1) d objs = some (d1, inv1) ∧
      hazptr_cleanup (fuel + 1) d1 = some (d2, inv2) ∧
      (inv1 ++ inv2).Perm (objs.map (fun p => { addr := p.1, reclaim := p.2 })) ∧
      shardsAllEmpty d2 = true ∧ d2.retired_count = 0 := by
  obtain ⟨d1, inv1, hrun, hinv1, hperm⟩ := retireAll_quiescent fuel objs d hinv hfns
  obtain ⟨d2, hclean, hempty2, hcnt2, _⟩ := cleanup_quiescent fuel d1 hinv1
  refine ⟨d1, inv1, d2, totalRetired d1, hrun, hclean, ?_, hempty2, hcnt2⟩
  have hp := hperm
  rw [hempty, List.append_nil] at hp
  exact hp

/-- Witness for `faaq_C2_cleanup_reclaims_all` at a concrete input. -/
theorem faaq_C2_witness :
    ∃ d1 inv1 d2 inv2,
      retireAll 2 default_domain [(16, some 1), (35, some 2)] = some (d1, inv1) ∧
      hazptr_cleanup 2 d1 = some (d2, inv2) ∧
      (inv1 ++ inv2).Perm
        ([(16, some 1), (35, some 2)].map
          (fun p => { addr := p.1, reclaim := p.2 })) ∧
      shardsAllEmpty d2 = true ∧ d2.retired_count = 0 :=
  faaq_C2_cleanup_reclaims_all 1 default_domain [(16, some 1), (35, some 2)]
    ⟨rfl, by decide, rfl, rfl, by decide⟩ rfl (by decide)
